import Mathlib

/-!
Verification of the text-normalization pipeline of the
Twitter-Sentiment-Classification repository (notebooks/data-cleaning.ipynb).

The Python functions `expand_contractions`, `remove_noise_texts`,
`remove_stopwords`, `negation_handle`, `remove_non_alpha`, `remove_spaces`,
`remove_short_words`, `lemmatize` and `data_cleaning` are shallowly embedded
as total functions on `List Char` / `String`.  Each chained `re.sub` call of
the source is compiled by hand into a scanner that follows Python's
leftmost, greedy, non-overlapping match semantics for that concrete pattern;
the justification for each compilation is recorded next to the definition.

External collaborators (the `contractions` dictionary, the NLTK stopword
list, the POS tagger and the WordNet lemmatizer) are not part of the
repository; they are modelled from the spec, as noted on each definition.
-/

namespace TwitterClean

/-! ## Character classes (Python `\s`, `[a-z]`, `[a-zA-Z]`, `\w`) -/

/-- Python's `\s` for the ASCII range: space, tab, newline, carriage
return, vertical tab, form feed (also what `str.split()` and `str.strip()`
split and strip on). -/
def isSpacePy (c : Char) : Bool :=
  c = ' ' || c = '\t' || c = '\n' || c = '\r' || c = '\x0b' || c = '\x0c'

/-- The regex class `[a-z]`. -/
def isLowerAlpha (c : Char) : Bool := 'a' ≤ c && c ≤ 'z'

/-- The regex class `[A-Z]`. -/
def isUpperAlpha (c : Char) : Bool := 'A' ≤ c && c ≤ 'Z'

/-- The regex class `[a-zA-Z]` of `remove_non_alpha`. -/
def isAlphaPy (c : Char) : Bool := isLowerAlpha c || isUpperAlpha c

/-- The regex class `[0-9]`. -/
def isDigitPy (c : Char) : Bool := '0' ≤ c && c ≤ '9'

/-- The regex class `\w` (ASCII): letters, digits and underscore.  Used by
the `\b` word boundaries of `negation_handle`. -/
def isWordChar (c : Char) : Bool := isAlphaPy c || isDigitPy c || c = '_'

/-- Python's `str.lower()` on the ASCII range (`'A'`-`'Z'` shifted by 32,
everything else unchanged). -/
def pyToLower (c : Char) : Char :=
  if isUpperAlpha c then Char.ofNat (c.toNat + 32) else c

/-! ## Python `str.split()`, `' '.join`, `str.strip()` -/

/-- One right-to-left pass of `str.split()`: returns the completed
whitespace-separated tokens of the processed suffix together with the
(possibly empty) token still being built at the left end. -/
def splitR : List Char → List (List Char) × List Char
  | [] => ([], [])
  | c :: cs =>
    let r := splitR cs
    if isSpacePy c then
      if r.2 = [] then (r.1, []) else (r.2 :: r.1, [])
    else (r.1, c :: r.2)

/-- Python's `str.split()` (split on whitespace runs, no empty tokens). -/
def pySplit (cs : List Char) : List (List Char) :=
  let r := splitR cs
  if r.2 = [] then r.1 else r.2 :: r.1

/-- Python's `' '.join(...)`. -/
def joinSpace : List (List Char) → List Char
  | [] => []
  | [t] => t
  | t :: t' :: ts => t ++ ' ' :: joinSpace (t' :: ts)

/-- Python's `str.strip()`: drop leading and trailing whitespace. -/
def pyStrip (cs : List Char) : List Char :=
  ((cs.dropWhile isSpacePy).reverse.dropWhile isSpacePy).reverse

/-! ## Grouping a string into runs -/

/-- Group a list into maximal runs of adjacent characters equivalent under
`eqv` (used with character equality for `(.)\1\1+`, and with equal
"spaceness" to split a string into its maximal `\S+` chunks and maximal
whitespace runs). -/
def groupRunsBy (eqv : Char → Char → Bool) : List Char → List (List Char)
  | [] => []
  | c :: cs =>
    match groupRunsBy eqv cs with
    | (d :: g) :: gs => if eqv c d then (c :: d :: g) :: gs else [c] :: (d :: g) :: gs
    | gs => [c] :: gs

/-- Apply `f` to every maximal non-whitespace chunk of the string, leaving
the whitespace between chunks untouched.  Faithful frame for any `re.sub`
whose pattern can match only non-whitespace text (`\S`-built patterns). -/
def mapChunks (f : List Char → List Char) (cs : List Char) : List Char :=
  ((groupRunsBy (fun a b => isSpacePy a = isSpacePy b) cs).map
    (fun g => match g with
      | [] => []
      | c :: _ => if isSpacePy c then g else f g)).flatten

/-! ## `remove_noise_texts` -/

/-- One maximal run of equal characters under `re.sub(r'(.)\1\1+', r'\1', _)`:
a run of three or more copies of a character is greedily matched in full and
replaced by a single copy.  `.` does not match a newline, so newline runs
are never touched. -/
def collapseRun (g : List Char) : List Char :=
  match g with
  | c :: _ :: _ :: _ => if c = '\n' then g else [c]
  | _ => g

/-- Compilation of `re.sub(r'(.)\1\1+', r'\1', text)`: collapse every run of 3+ identical
characters (other than newlines) to a single character. -/
def collapseRepeats (cs : List Char) : List Char :=
  ((groupRunsBy (fun a b => a = b) cs).map collapseRun).flatten

/-- Compilation of `re.sub(r'\S+@\S+', '', text)` on one maximal non-whitespace chunk.
A match must lie inside one chunk (`\S` cannot cross whitespace); scanning
from the chunk start, the greedy `\S+@\S+` succeeds iff the chunk has an
`'@'` that is neither its first nor its last character, and the match then
covers the whole chunk (first `\S+` backtracks only to the last usable
`'@'`, the second `\S+` extends to the chunk end), so the whole chunk is
deleted. -/
def emailChunk (g : List Char) : List Char :=
  if ((g.drop 1).dropLast).contains '@' then [] else g

/-- Compilation of `re.sub(r'(@|#)\S+', '', text)` on one maximal non-whitespace chunk:
the match starts at the first `'@'`/`'#'` that still has at least one
character after it inside the chunk and greedily extends to the chunk end,
so everything from that character on is deleted. -/
def mentionChunk : List Char → List Char
  | [] => []
  | c :: cs =>
    match cs with
    | [] => [c]
    | _ :: _ => if c = '@' || c = '#' then [] else c :: mentionChunk cs

/-- Does the list start with the four characters `".com"`? -/
def dotComAt (g : List Char) : Bool :=
  match g with
  | '.' :: 'c' :: 'o' :: 'm' :: _ => true
  | _ => false

/-- The largest index `j ≥ 1` at which `".com"` starts inside `g` (the
greedy backtracking position of `\S+` in `\S+\.com`), if any. -/
def lastDotCom : List Char → Option Nat
  | [] => none
  | _ :: cs =>
    match lastDotCom cs with
    | some j => some (j + 1)
    | none => if dotComAt cs then some 1 else none

/-- Number of characters consumed by a match of
`((www\.\S+)|(https?://\S+))|(\S+\.com)` starting at the head of the
suffix `g` of a non-whitespace chunk, alternatives tried in the regex
order.  The `www.` and `http(s)://` branches greedily consume the whole
rest of the chunk; the `\S+\.com` branch consumes up to the end of the
last `".com"` that starts at index ≥ 1. -/
def linkTry (g : List Char) : Option Nat :=
  match g with
  | 'w' :: 'w' :: 'w' :: '.' :: _ :: _ => some g.length
  | 'h' :: 't' :: 't' :: 'p' :: 's' :: ':' :: '/' :: '/' :: _ :: _ => some g.length
  | 'h' :: 't' :: 't' :: 'p' :: ':' :: '/' :: '/' :: _ :: _ => some g.length
  | _ =>
    match lastDotCom g with
    | some j => some (j + 4)
    | none => none

/-- Left-to-right scan of `re.sub` for the link pattern inside one chunk
(fuel-indexed; each step consumes at least one character, so
`fuel = g.length` suffices). -/
def linkChunkF : Nat → List Char → List Char
  | 0, g => g
  | _ + 1, [] => []
  | fuel + 1, c :: cs =>
    match linkTry (c :: cs) with
    | some n => linkChunkF fuel ((c :: cs).drop n)
    | none => c :: linkChunkF fuel cs

/-- Compilation of `re.sub(r'((www\.\S+)|(https?://\S+))|(\S+\.com)', '', text)` on one
maximal non-whitespace chunk. -/
def linkChunk (g : List Char) : List Char := linkChunkF g.length g

/-- The four `re.sub` calls of `remove_noise_texts`, in source order:
repeated characters, emails, mentions/hashtags, links. -/
def removeNoiseCore (cs : List Char) : List Char :=
  mapChunks linkChunk (mapChunks mentionChunk (mapChunks emailChunk (collapseRepeats cs)))

/-! ## `expand_contractions` (external collaborator, modelled) -/

/-- Modelled from the spec: the `contractions` library used by
`expand_contractions` is an external collaborator ("a language-aware
contraction-expansion function (external collaborator: a contraction
dictionary/expander)", spec section 4.1 step 2).  It is modelled as a fixed
dictionary from contracted token to expanded text, covering the
contractions exercised by the repository's recorded examples
("don't"/"dont" to "do not", "he'll" to "he will", "it's"/"he's" to
"it is"/"he is", "can't" to "cannot", and further common forms). -/
def contractionPairs : List (String × String) :=
  [("don't", "do not"), ("dont", "do not"),
   ("it's", "it is"), ("he's", "he is"), ("she's", "she is"),
   ("that's", "that is"), ("there's", "there is"), ("what's", "what is"),
   ("he'll", "he will"), ("she'll", "she will"), ("i'll", "i will"),
   ("you'll", "you will"), ("we'll", "we will"), ("they'll", "they will"),
   ("can't", "cannot"), ("cant", "cannot"), ("won't", "will not"),
   ("i'm", "i am"), ("im", "i am"), ("i've", "i have"), ("i'd", "i would"),
   ("you're", "you are"), ("they're", "they are"), ("we're", "we are"),
   ("isn't", "is not"), ("aren't", "are not"), ("wasn't", "was not"),
   ("weren't", "were not"), ("doesn't", "does not"), ("didn't", "did not"),
   ("haven't", "have not"), ("hasn't", "has not"), ("hadn't", "had not"),
   ("wouldn't", "would not"), ("couldn't", "could not"),
   ("shouldn't", "should not"), ("let's", "let us"), ("ain't", "am not")]

/-- The contraction dictionary over character lists. -/
def contractionData : List (List Char × List Char) :=
  contractionPairs.map fun p => (p.1.data, p.2.data)

/-- Expand one whitespace-delimited token through the contraction
dictionary (tokens that are not contractions pass through unchanged). -/
def expandChunk (g : List Char) : List Char :=
  match contractionData.find? (fun p => p.1 == g) with
  | some p => p.2
  | none => g

/-! ## `remove_stopwords` (stopword list is an external resource, modelled) -/

/-- Modelled from the spec: `stopwords.words("english")` is loaded from
NLTK, an external resource ("StopwordSet: a fixed set of strings, loaded
once at process start", spec section 3).  Modelled as the standard NLTK
English stopword list. -/
def stop_words : List String :=
  ["i", "me", "my", "myself", "we", "our", "ours", "ourselves",
   "you", "you're", "you've", "you'll", "you'd", "your", "yours",
   "yourself", "yourselves", "he", "him", "his", "himself", "she",
   "she's", "her", "hers", "herself", "it", "it's", "its", "itself",
   "they", "them", "their", "theirs", "themselves", "what", "which",
   "who", "whom", "this", "that", "that'll", "these", "those", "am",
   "is", "are", "was", "were", "be", "been", "being", "have", "has",
   "had", "having", "do", "does", "did", "doing", "a", "an", "the",
   "and", "but", "if", "or", "because", "as", "until", "while", "of",
   "at", "by", "for", "with", "about", "against", "between", "into",
   "through", "during", "before", "after", "above", "below", "to",
   "from", "up", "down", "in", "out", "on", "off", "over", "under",
   "again", "further", "then", "once", "here", "there", "when", "where",
   "why", "how", "all", "any", "both", "each", "few", "more", "most",
   "other", "some", "such", "no", "nor", "not", "only", "own", "same",
   "so", "than", "too", "very", "s", "t", "can", "will", "just", "don",
   "don't", "should", "should've", "now", "d", "ll", "m", "o", "re",
   "ve", "y", "ain", "aren", "aren't", "couldn", "couldn't", "didn",
   "didn't", "doesn", "doesn't", "hadn", "hadn't", "hasn", "hasn't",
   "haven", "haven't", "isn", "isn't", "ma", "mightn", "mightn't",
   "mustn", "mustn't", "needn", "needn't", "shan", "shan't", "shouldn",
   "shouldn't", "wasn", "wasn't", "weren", "weren't", "won", "won't",
   "wouldn", "wouldn't"]

/-- The stopword list over character lists. -/
def stopWordsData : List (List Char) := stop_words.map String.data

/-- The negation markers kept back when `neg_keep` is true
(`['not', 'no', 'nor']` in the source). -/
def negKeepData : List (List Char) := ["not", "no", "nor"].map String.data

/-- The effective stopword list for a call of `remove_stopwords`. -/
def stopWordList (neg_keep : Bool) : List (List Char) :=
  if neg_keep then stopWordsData.filter (fun w => !(negKeepData.contains w))
  else stopWordsData

/-- Core of `remove_stopwords` on characters: split on whitespace, drop the tokens
on the (possibly negation-preserving) stopword list, re-join with single
spaces. -/
def removeStopwordsCore (neg_keep : Bool) (cs : List Char) : List Char :=
  joinSpace ((pySplit cs).filter (fun w => !((stopWordList neg_keep).contains w)))

/-! ## `negation_handle` -/

/-- The negation cues of `negation_handle`, in the regex's alternation
order `not|no|never|cannot`. -/
def cueWords : List String := ["not", "no", "never", "cannot"]

/-- The cues over character lists. -/
def cueListData : List (List Char) := cueWords.map String.data

/-- Word-boundary test for the `\b` before a cue: the cue starts with a
word character, so the position is a boundary iff the preceding character
(if any) is not a word character. -/
def boundaryBefore : Option Char → Bool
  | none => true
  | some c => !isWordChar c

/-- Try to match `cue\b\s+[a-z]+` at the head of `cs`: on success return
the whitespace run and the following lowercase word, plus the rest of the
string.  The `\b` after the cue is subsumed by the mandatory whitespace. -/
def matchCue (cs : List Char) (cue : List Char) :
    Option (List Char × List Char × List Char) :=
  if cs.take cue.length == cue then
    let r1 := cs.drop cue.length
    let ws := r1.takeWhile isSpacePy
    let r2 := r1.dropWhile isSpacePy
    let w := r2.takeWhile isLowerAlpha
    let r3 := r2.dropWhile isLowerAlpha
    if ws.isEmpty || w.isEmpty then none else some (ws, w, r3)
  else none

/-- Try the full pattern `\b(?:not|no|never|cannot)\b\s+[a-z]+` at the
current position, given the previous character.  On success, return the
text the match contributes to the output — the inner
`re.sub(r'(\s+)(\w+)', r'\1NEG\2', match)` turns `cue ws word` into
`cue ws NEGword` — together with the last original character of the match
(for the boundary state) and the unconsumed rest. -/
def tryCue (prev : Option Char) (cs : List Char) :
    Option (List Char × Char × List Char) :=
  if boundaryBefore prev then
    cueListData.findSome? fun cue =>
      (matchCue cs cue).map fun m =>
        (cue ++ m.1 ++ ('N' :: 'E' :: 'G' :: m.2.1), m.2.1.getLastD 'a', m.2.2)
  else none

/-- The `re.sub` scan of `negation_handle` (fuel-indexed; a step consumes
at least one character, so `fuel = cs.length` suffices): at each position
either the pattern matches — its rewriting is emitted and the scan resumes
after the match — or one character is copied. -/
def negScanF : Nat → Option Char → List Char → List Char
  | 0, _, cs => cs
  | _ + 1, _, [] => []
  | fuel + 1, prev, c :: cs =>
    match tryCue prev (c :: cs) with
    | some m => m.1 ++ negScanF fuel (some m.2.1) m.2.2
    | none => c :: negScanF fuel (some c) cs

/-- Core of `negation_handle` on characters. -/
def negationHandleCore (cs : List Char) : List Char :=
  negScanF cs.length none cs

/-! ## `remove_non_alpha`, `remove_spaces`, `remove_short_words` -/

/-- Compilation of `re.sub(r'[^a-zA-Z]', r' ', _)` acts characterwise. -/
def alphaOrSpace (c : Char) : Char := if isAlphaPy c then c else ' '

/-- The `re.sub(r'\s\s+', ' ', _)` scan (fuel-indexed): two adjacent
whitespace characters are merged into a single `' '` until the maximal
whitespace run is reduced to one space; a lone whitespace character is
left as it is. -/
def removeSpacesF : Nat → List Char → List Char
  | 0, l => l
  | _ + 1, [] => []
  | _ + 1, [c] => [c]
  | fuel + 1, c :: d :: rest =>
    if isSpacePy c && isSpacePy d then removeSpacesF fuel (' ' :: rest)
    else c :: removeSpacesF fuel (d :: rest)

/-- Core of `remove_spaces` on characters. -/
def removeSpacesCore (cs : List Char) : List Char := removeSpacesF cs.length cs

/-- Core of `remove_short_words` on characters: keep the tokens of length > 1. -/
def removeShortWordsCore (cs : List Char) : List Char :=
  joinSpace ((pySplit cs).filter (fun w => decide (1 < w.length)))

/-! ## The String-level functions of the notebook -/

/-- Translation of `expand_contractions(text)` (`contractions.fix`, modelled through the
dictionary `contractionPairs`; whitespace between tokens is preserved). -/
def expand_contractions (s : String) : String :=
  ⟨mapChunks expandChunk s.data⟩

/-- Translation of `remove_noise_texts(text)`. -/
def remove_noise_texts (s : String) : String :=
  ⟨removeNoiseCore s.data⟩

/-- Translation of `remove_stopwords(text, neg_keep=False)`. -/
def remove_stopwords (s : String) (neg_keep : Bool := false) : String :=
  ⟨removeStopwordsCore neg_keep s.data⟩

/-- Translation of `negation_handle(text)`. -/
def negation_handle (s : String) : String :=
  ⟨negationHandleCore s.data⟩

/-- Translation of `remove_non_alpha(text)`. -/
def remove_non_alpha (s : String) : String :=
  ⟨s.data.map alphaOrSpace⟩

/-- Translation of `remove_spaces(text)`. -/
def remove_spaces (s : String) : String :=
  ⟨removeSpacesCore s.data⟩

/-- Translation of `remove_short_words(text)`. -/
def remove_short_words (s : String) : String :=
  ⟨removeShortWordsCore s.data⟩

/-- Translation of `lemmatize(text)`.  The POS tagger (`nltk.pos_tag`) and the WordNet
lemmatizer are external collaborators (spec section 4.3) and are passed as
parameters `posTag` and `wnLemmatize`; the source's structure — tag the
whitespace-split tokens, lowercase the first letter of each tag, lemmatize
only under an `a`/`n`/`v`/`r` tag, re-join on single spaces — is kept. -/
def lemmatizeCore (posTag : List String → List (String × String))
    (wnLemmatize : String → Char → String) (l : List Char) : List Char :=
  let tagged := posTag ((pySplit l).map fun t => (⟨t⟩ : String))
  let result := tagged.map fun p =>
    let tg := pyToLower (p.2.data.headD ' ')
    if tg = 'a' || tg = 'n' || tg = 'v' || tg = 'r' then wnLemmatize p.1 tg
    else p.1
  joinSpace (result.map String.data)

def lemmatize (posTag : List String → List (String × String))
    (wnLemmatize : String → Char → String) (s : String) : String :=
  ⟨lemmatizeCore posTag wnLemmatize s.data⟩

/-- Translation of `data_cleaning(text, handle_neg=False, remove_all_stopword=False,
is_lemmatized=False)`, stage for stage as in the source. -/
def data_cleaning (posTag : List String → List (String × String))
    (wnLemmatize : String → Char → String) (text : String)
    (handle_neg : Bool := false) (remove_all_stopword : Bool := false)
    (is_lemmatized : Bool := false) : String :=
  let t := (⟨text.data.map pyToLower⟩ : String)
  let t := expand_contractions t
  let t := remove_noise_texts t
  let t := if handle_neg then negation_handle (remove_stopwords t true) else t
  let t := remove_non_alpha t
  let t := remove_short_words t
  let t := remove_spaces t
  let t := if is_lemmatized then lemmatize posTag wnLemmatize t else t
  let t := if remove_all_stopword then remove_stopwords t false else t
  ⟨pyStrip t.data⟩

/-! ## Lemmas about splitting, joining, stripping -/

/-- Tokens produced by one token are "good": nonempty and whitespace-free. -/
def goodTokens (ts : List (List Char)) : Prop :=
  ∀ t ∈ ts, t ≠ [] ∧ ∀ c ∈ t, isSpacePy c = false

theorem splitR_cons_space {c : Char} (h : isSpacePy c = true) (cs : List Char) :
    splitR (c :: cs) = (pySplit cs, []) := by
  simp only [splitR, pySplit, h, if_true]
  by_cases h2 : (splitR cs).2 = [] <;> simp [h2]

theorem splitR_cons_nonspace {c : Char} (h : isSpacePy c = false) (cs : List Char) :
    splitR (c :: cs) = ((splitR cs).1, c :: (splitR cs).2) := by
  simp [splitR, h]

theorem splitR_good (cs : List Char) :
    goodTokens (splitR cs).1 ∧ ∀ c ∈ (splitR cs).2, isSpacePy c = false := by
  induction cs with
  | nil => simp [splitR, goodTokens]
  | cons c cs ih =>
    by_cases hc : isSpacePy c
    · rw [splitR_cons_space hc]
      refine ⟨?_, by simp⟩
      simp only [pySplit]
      by_cases h2 : (splitR cs).2 = []
      · simpa [h2] using ih.1
      · simp only [h2, if_neg]
        intro t ht
        rcases List.mem_cons.1 ht with rfl | ht
        · exact ⟨h2, ih.2⟩
        · exact ih.1 t ht
    · rw [splitR_cons_nonspace (by simpa using hc)]
      refine ⟨ih.1, ?_⟩
      intro d hd
      rcases List.mem_cons.1 hd with rfl | hd
      · simpa using hc
      · exact ih.2 d hd

theorem pySplit_good (cs : List Char) : goodTokens (pySplit cs) := by
  simp only [pySplit]
  by_cases h2 : (splitR cs).2 = []
  · simpa [h2] using (splitR_good cs).1
  · simp only [h2, if_neg]
    intro t ht
    rcases List.mem_cons.1 ht with rfl | ht
    · exact ⟨h2, (splitR_good cs).2⟩
    · exact (splitR_good cs).1 t ht

theorem splitR_subset (cs : List Char) :
    (∀ t ∈ (splitR cs).1, ∀ c ∈ t, c ∈ cs) ∧ (∀ c ∈ (splitR cs).2, c ∈ cs) := by
  induction cs with
  | nil => simp [splitR]
  | cons c cs ih =>
    by_cases hc : isSpacePy c
    · rw [splitR_cons_space hc]
      refine ⟨?_, by simp⟩
      simp only [pySplit]
      by_cases h2 : (splitR cs).2 = []
      · simp only [h2, if_pos]
        exact fun t ht d hd => List.mem_cons_of_mem _ (ih.1 t ht d hd)
      · simp only [h2, if_neg]
        intro t ht d hd
        rcases List.mem_cons.1 ht with rfl | ht
        · exact List.mem_cons_of_mem _ (ih.2 d hd)
        · exact List.mem_cons_of_mem _ (ih.1 t ht d hd)
    · rw [splitR_cons_nonspace (by simpa using hc)]
      constructor
      · exact fun t ht d hd => List.mem_cons_of_mem _ (ih.1 t ht d hd)
      · intro d hd
        rcases List.mem_cons.1 hd with rfl | hd
        · exact List.mem_cons_self _ _
        · exact List.mem_cons_of_mem _ (ih.2 d hd)

theorem pySplit_subset (cs : List Char) : ∀ t ∈ pySplit cs, ∀ c ∈ t, c ∈ cs := by
  simp only [pySplit]
  by_cases h2 : (splitR cs).2 = []
  · simpa [h2] using (splitR_subset cs).1
  · simp only [h2, if_neg]
    intro t ht
    rcases List.mem_cons.1 ht with rfl | ht
    · exact (splitR_subset cs).2
    · exact (splitR_subset cs).1 t ht

theorem splitR_append_nonspace {a : List Char} (h : ∀ c ∈ a, isSpacePy c = false)
    (m : List Char) : splitR (a ++ m) = ((splitR m).1, a ++ (splitR m).2) := by
  induction a with
  | nil => simp
  | cons c a ih =>
    have hc : isSpacePy c = false := h c (List.mem_cons_self _ _)
    rw [List.cons_append, splitR_cons_nonspace hc,
      ih (fun d hd => h d (List.mem_cons_of_mem _ hd))]
    rfl

theorem splitR_append_spaces (c : Char) (s : List Char)
    (h : ∀ d ∈ c :: s, isSpacePy d = true) (m : List Char) :
    splitR ((c :: s) ++ m) = (pySplit m, []) := by
  induction s generalizing c with
  | nil => simpa using splitR_cons_space (h c (by simp)) m
  | cons d s ih =>
    rw [List.cons_append, splitR_cons_space (h c (by simp))]
    have h2 := ih d (fun x hx => h x (by simp at hx ⊢; tauto))
    rw [List.cons_append] at h2
    simp [pySplit, h2]

theorem splitR_joinSpace (ts : List (List Char)) (h : goodTokens ts) :
    splitR (joinSpace ts) = (ts.tail, ts.headD []) := by
  induction ts with
  | nil => simp [joinSpace, splitR]
  | cons t ts ih =>
    match ts with
    | [] =>
      have := splitR_append_nonspace (h t (by simp)).2 ([] : List Char)
      simpa [joinSpace, splitR] using this
    | t' :: ts' =>
      have hgood : goodTokens (t' :: ts') := fun x hx => h x (by simp [hx])
      have ih2 := ih hgood
      have hsp : splitR (' ' :: joinSpace (t' :: ts')) =
          (pySplit (joinSpace (t' :: ts')), []) :=
        splitR_cons_space (by decide) _
      have hps : pySplit (joinSpace (t' :: ts')) = t' :: ts' := by
        simp [pySplit, ih2, (hgood t' (by simp)).1]
      rw [joinSpace, splitR_append_nonspace (h t (by simp)).2, hsp, hps]
      simp

theorem pySplit_joinSpace (ts : List (List Char)) (h : goodTokens ts) :
    pySplit (joinSpace ts) = ts := by
  match ts with
  | [] => simp [joinSpace, pySplit, splitR]
  | t :: ts' =>
    simp [pySplit, splitR_joinSpace _ h, (h t (by simp)).1]

theorem joinSpace_head (t : List Char) (ts : List (List Char))
    (h : goodTokens (t :: ts)) :
    ∃ c r, joinSpace (t :: ts) = c :: r ∧ isSpacePy c = false := by
  obtain ⟨hne, hsp⟩ := h t (by simp)
  match t, ts with
  | [], _ => exact absurd rfl hne
  | c :: t', [] => exact ⟨c, t', by simp [joinSpace], hsp c (by simp)⟩
  | c :: t', t'' :: ts' =>
    exact ⟨c, t' ++ ' ' :: joinSpace (t'' :: ts'), by simp [joinSpace], hsp c (by simp)⟩

theorem joinSpace_mem (ts : List (List Char)) :
    ∀ c ∈ joinSpace ts, c = ' ' ∨ ∃ t ∈ ts, c ∈ t := by
  induction ts with
  | nil => simp [joinSpace]
  | cons t ts ih =>
    match ts with
    | [] => intro c hc; exact Or.inr ⟨t, by simp, by simpa [joinSpace] using hc⟩
    | t' :: ts' =>
      intro c hc
      rw [joinSpace] at hc
      rcases List.mem_append.1 hc with hc | hc
      · exact Or.inr ⟨t, by simp, hc⟩
      · rcases List.mem_cons.1 hc with rfl | hc
        · exact Or.inl rfl
        · rcases ih c hc with h | ⟨u, hu, hcu⟩
          · exact Or.inl h
          · exact Or.inr ⟨u, by simp [hu], hcu⟩

theorem dropWhile_cons_of_neg {p : Char → Bool} {c : Char} (l : List Char)
    (h : p c = false) : (c :: l).dropWhile p = c :: l := by
  simp [List.dropWhile_cons, h]

theorem joinSpace_last (ts : List (List Char)) (h : goodTokens ts) :
    ts = [] ∨ ∃ c r, (joinSpace ts).reverse = c :: r ∧ isSpacePy c = false := by
  induction ts with
  | nil => exact Or.inl rfl
  | cons t ts ih =>
    refine Or.inr ?_
    match ts with
    | [] =>
      obtain ⟨hne, hsp⟩ := h t (by simp)
      have : t.reverse ≠ [] := by simpa using hne
      obtain ⟨c, r, hcr⟩ := List.exists_cons_of_ne_nil this
      refine ⟨c, r, by simpa [joinSpace] using hcr, ?_⟩
      have : c ∈ t := by
        have : c ∈ t.reverse := by rw [hcr]; simp
        simpa using this
      exact hsp c this
    | t' :: ts' =>
      have hgood : goodTokens (t' :: ts') := fun x hx => h x (by simp [hx])
      rcases ih hgood with h' | ⟨c, r, hcr, hc⟩
      · exact absurd h' (by simp)
      · refine ⟨c, r ++ (' ' :: t.reverse), ?_, hc⟩
        rw [joinSpace, List.reverse_append]
        simp only [List.reverse_cons]
        rw [hcr]
        simp

theorem pyStrip_joinSpace (ts : List (List Char)) (h : goodTokens ts) :
    pyStrip (joinSpace ts) = joinSpace ts := by
  have h1 : (joinSpace ts).dropWhile isSpacePy = joinSpace ts := by
    match ts with
    | [] => rfl
    | t :: ts' =>
      obtain ⟨c, r, hcr, hc⟩ := joinSpace_head t ts' h
      rw [hcr, dropWhile_cons_of_neg _ hc]
  have h2 : (joinSpace ts).reverse.dropWhile isSpacePy = (joinSpace ts).reverse := by
    rcases joinSpace_last ts h with rfl | ⟨c, r, hcr, hc⟩
    · rfl
    · rw [hcr, dropWhile_cons_of_neg _ hc]
  rw [pyStrip, h1, h2, List.reverse_reverse]

/-! ## `remove_spaces` is the identity on single-spaced text -/

/-- No two adjacent whitespace characters. -/
def noTwo : List Char → Bool
  | c :: d :: rest => (!(isSpacePy c && isSpacePy d)) && noTwo (d :: rest)
  | _ => true

theorem removeSpacesF_noop : ∀ (fuel : Nat) (l : List Char), noTwo l = true →
    removeSpacesF fuel l = l := by
  intro fuel
  induction fuel with
  | zero => intro _ _; rfl
  | succ fuel ih =>
    intro l hl
    match l with
    | [] => rfl
    | [c] => rfl
    | c :: d :: rest =>
      rw [noTwo, Bool.and_eq_true] at hl
      have h1 : (isSpacePy c && isSpacePy d) = false := by
        have := hl.1; rwa [Bool.not_eq_true'] at this
      simp only [removeSpacesF]
      rw [if_neg (by simp [h1]), ih _ hl.2]

theorem noTwo_append {t : List Char} (ht : ∀ c ∈ t, isSpacePy c = false)
    {l : List Char} (hl : noTwo l = true) : noTwo (t ++ l) = true := by
  induction t with
  | nil => simpa
  | cons c t' ih =>
    have hih := ih (fun x hx => ht x (by simp [hx]))
    have hc : isSpacePy c = false := ht c (by simp)
    rw [List.cons_append]
    match hm : t' ++ l with
    | [] => rfl
    | d :: r =>
      rw [hm] at hih
      rw [noTwo, Bool.and_eq_true]
      exact ⟨by simp [hc], hih⟩

theorem noTwo_joinSpace (ts : List (List Char)) (h : goodTokens ts) :
    noTwo (joinSpace ts) = true := by
  induction ts with
  | nil => rfl
  | cons t ts ih =>
    match ts with
    | [] =>
      have := noTwo_append ((h t (by simp)).2) (l := []) rfl
      simpa [joinSpace] using this
    | t' :: ts' =>
      have hgood : goodTokens (t' :: ts') := fun x hx => h x (by simp [hx])
      have ih2 := ih hgood
      obtain ⟨c, r, hcr, hc⟩ := joinSpace_head t' ts' hgood
      rw [joinSpace]
      apply noTwo_append ((h t (by simp)).2)
      rw [hcr]
      rw [noTwo, Bool.and_eq_true]
      refine ⟨by simp [hc], ?_⟩
      rw [← hcr]; exact ih2

theorem removeSpacesCore_joinSpace (ts : List (List Char)) (h : goodTokens ts) :
    removeSpacesCore (joinSpace ts) = joinSpace ts :=
  removeSpacesF_noop _ _ (noTwo_joinSpace ts h)

theorem removeStopwordsCore_joinSpace (nk : Bool) (ts : List (List Char))
    (h : goodTokens ts) :
    removeStopwordsCore nk (joinSpace ts) =
      joinSpace (ts.filter (fun w => !((stopWordList nk).contains w))) := by
  rw [removeStopwordsCore, pySplit_joinSpace ts h]

/-! ## Structure of the pipeline tail (short words, spaces, stopwords, strip) -/

/-- The last four stages of `data_cleaning` (with `is_lemmatized=False`):
whatever string they receive, the result is a single-space join of a list
of tokens, all of which are tokens of the input of length > 1. -/
theorem finalize_structure (x5 : List Char) (ras : Bool) :
    ∃ ts : List (List Char),
      goodTokens ts ∧ (∀ t ∈ ts, t ∈ pySplit x5 ∧ 1 < t.length) ∧
      pyStrip (cond ras
          (removeStopwordsCore false (removeSpacesCore (removeShortWordsCore x5)))
          (removeSpacesCore (removeShortWordsCore x5))) = joinSpace ts := by
  have hgood0 := pySplit_good x5
  have hgood1 : goodTokens ((pySplit x5).filter (fun w => decide (1 < w.length))) :=
    fun t ht => hgood0 t (List.mem_of_mem_filter ht)
  have hmem1 : ∀ t ∈ (pySplit x5).filter (fun w => decide (1 < w.length)),
      t ∈ pySplit x5 ∧ 1 < t.length := by
    intro t ht
    have := List.mem_filter.1 ht
    exact ⟨this.1, by simpa using this.2⟩
  have h6 : removeShortWordsCore x5 =
      joinSpace ((pySplit x5).filter (fun w => decide (1 < w.length))) := rfl
  have h7 := removeSpacesCore_joinSpace _ hgood1
  cases ras with
  | false =>
    refine ⟨(pySplit x5).filter (fun w => decide (1 < w.length)),
      hgood1, hmem1, ?_⟩
    show pyStrip (removeSpacesCore (removeShortWordsCore x5)) = _
    rw [h6, h7, pyStrip_joinSpace _ hgood1]
  | true =>
    refine ⟨((pySplit x5).filter (fun w => decide (1 < w.length))).filter
        (fun w => !((stopWordList false).contains w)), ?_, ?_, ?_⟩
    · exact fun t ht => hgood1 t (List.mem_of_mem_filter ht)
    · exact fun t ht => hmem1 t (List.mem_of_mem_filter ht)
    · show pyStrip (removeStopwordsCore false
        (removeSpacesCore (removeShortWordsCore x5))) = _
      rw [h6, h7, removeStopwordsCore_joinSpace _ _ hgood1,
        pyStrip_joinSpace _ (fun t ht => hgood1 t (List.mem_of_mem_filter ht))]

/-! ## Character-level facts -/

theorem toNat_ofNat_valid {n : Nat} (h : n.isValidChar) : (Char.ofNat n).toNat = n := by
  rw [Char.ofNat, dif_pos h]; rfl

theorem charLe_toNat {c d : Char} : (c ≤ d) ↔ c.toNat ≤ d.toNat := by
  rw [Char.le_def, UInt32.le_def, BitVec.le_def]; rfl

theorem isUpperAlpha_iff (c : Char) :
    isUpperAlpha c = true ↔ 65 ≤ c.toNat ∧ c.toNat ≤ 90 := by
  rw [isUpperAlpha, Bool.and_eq_true, decide_eq_true_iff, decide_eq_true_iff,
    charLe_toNat, charLe_toNat]
  exact Iff.rfl

theorem pyToLower_not_upper (c : Char) : isUpperAlpha (pyToLower c) = false := by
  rw [pyToLower]
  by_cases h : isUpperAlpha c = true
  · rw [if_pos h]
    have hc := (isUpperAlpha_iff c).1 h
    have hval : (c.toNat + 32).isValidChar := Or.inl (by omega)
    have ht := toNat_ofNat_valid hval
    rw [Bool.eq_false_iff]
    intro hcontra
    have := (isUpperAlpha_iff _).1 hcontra
    rw [ht] at this
    omega
  · rw [if_neg h]
    exact Bool.not_eq_true _ ▸ Bool.of_not_eq_true h

/-! ## Character-subset lemmas for each stage -/

theorem groupRunsBy_cons (eqv : Char → Char → Bool) (c : Char) (cs : List Char) :
    groupRunsBy eqv (c :: cs) =
      match groupRunsBy eqv cs with
      | (d :: g) :: gs => if eqv c d then (c :: d :: g) :: gs else [c] :: (d :: g) :: gs
      | gs => [c] :: gs := rfl

theorem groupRunsBy_flatten (eqv : Char → Char → Bool) (cs : List Char) :
    (groupRunsBy eqv cs).flatten = cs := by
  induction cs with
  | nil => rfl
  | cons c cs ih =>
    rw [groupRunsBy_cons]
    match h : groupRunsBy eqv cs with
    | [] =>
      rw [h] at ih
      simp at ih
      simp [ih]
    | [] :: gs =>
      rw [h] at ih
      simp at ih ⊢
      exact ih
    | (d :: g) :: gs =>
      rw [h] at ih
      dsimp only
      by_cases he : eqv c d
      · rw [if_pos he]
        simp only [List.flatten_cons] at ih ⊢
        simp [ih]
      · rw [if_neg he]
        simp only [List.flatten_cons] at ih ⊢
        simp [ih]

theorem mapChunks_mem {f : List Char → List Char} {P : Char → Prop}
    (hf : ∀ g c, c ∈ f g → c ∈ g ∨ P c) (cs : List Char) :
    ∀ c ∈ mapChunks f cs, c ∈ cs ∨ P c := by
  intro c hc
  rw [mapChunks] at hc
  rcases List.mem_flatten.1 hc with ⟨piece, hpiece, hcp⟩
  rcases List.mem_map.1 hpiece with ⟨g, hg, rfl⟩
  have hmem : ∀ d ∈ g, d ∈ cs := by
    intro d hd
    rw [← groupRunsBy_flatten (fun a b => isSpacePy a = isSpacePy b) cs]
    exact List.mem_flatten.2 ⟨g, hg, hd⟩
  match g with
  | [] => simp at hcp
  | d :: g' =>
    dsimp only at hcp
    by_cases hd : isSpacePy d
    · rw [if_pos (by simpa using hd)] at hcp
      exact Or.inl (hmem c hcp)
    · rw [if_neg (by simpa using hd)] at hcp
      rcases hf (d :: g') c hcp with h | h
      · exact Or.inl (hmem c h)
      · exact Or.inr h

theorem collapseRun_subset (g : List Char) : ∀ c ∈ collapseRun g, c ∈ g := by
  match g with
  | [] => simp [collapseRun]
  | [c] => simp [collapseRun]
  | [c, d] => simp [collapseRun]
  | c :: d :: e :: r =>
    rw [collapseRun]
    by_cases h : c = '\n'
    · rw [if_pos h]; exact fun _ => id
    · rw [if_neg h]; intro x hx; simp at hx; simp [hx]

theorem collapseRepeats_subset (cs : List Char) : ∀ c ∈ collapseRepeats cs, c ∈ cs := by
  intro c hc
  rw [collapseRepeats] at hc
  rcases List.mem_flatten.1 hc with ⟨piece, hpiece, hcp⟩
  rcases List.mem_map.1 hpiece with ⟨g, hg, rfl⟩
  have := collapseRun_subset g c hcp
  rw [← groupRunsBy_flatten (fun a b => a = b) cs]
  exact List.mem_flatten.2 ⟨g, hg, this⟩

theorem emailChunk_subset (g : List Char) : ∀ c ∈ emailChunk g, c ∈ g := by
  rw [emailChunk]
  by_cases h : ((g.drop 1).dropLast).contains '@'
  · rw [if_pos h]; simp
  · rw [if_neg h]; exact fun _ => id

theorem mentionChunk_subset (g : List Char) : ∀ c ∈ mentionChunk g, c ∈ g := by
  induction g with
  | nil => simp [mentionChunk]
  | cons c g ih =>
    match g with
    | [] => simp [mentionChunk]
    | d :: g' =>
      rw [mentionChunk]
      by_cases h : (c = '@' || c = '#') = true
      · rw [if_pos h]; simp
      · rw [if_neg h]
        intro x hx
        rcases List.mem_cons.1 hx with rfl | hx
        · exact List.mem_cons_self _ _
        · exact List.mem_cons_of_mem _ (ih x hx)

theorem linkChunkF_subset (fuel : Nat) : ∀ (g : List Char), ∀ c ∈ linkChunkF fuel g, c ∈ g := by
  induction fuel with
  | zero => exact fun g c => id
  | succ fuel ih =>
    intro g c hc
    match g with
    | [] => simp [linkChunkF] at hc
    | d :: g' =>
      rcases htry : linkTry (d :: g') with _ | n
      · rw [linkChunkF, htry] at hc
        dsimp only at hc
        rcases List.mem_cons.1 hc with rfl | hc
        · exact List.mem_cons_self _ _
        · exact List.mem_cons_of_mem _ (ih _ c hc)
      · rw [linkChunkF, htry] at hc
        dsimp only at hc
        exact (List.drop_suffix n (d :: g')).subset (ih _ c hc)

theorem isSpacePy_cases {c : Char} (h : isSpacePy c = true) :
    c = ' ' ∨ c = '\t' ∨ c = '\n' ∨ c = '\r' ∨ c = '\x0b' ∨ c = '\x0c' := by
  have h' := h
  simp only [isSpacePy, Bool.or_eq_true, decide_eq_true_iff] at h'
  tauto

theorem lower_not_space {c : Char} (h : isLowerAlpha c = true) : isSpacePy c = false := by
  by_contra hc
  rw [Bool.not_eq_false] at hc
  rcases isSpacePy_cases hc with rfl|rfl|rfl|rfl|rfl|rfl <;> exact absurd h (by decide)

theorem space_not_alpha {c : Char} (h : isSpacePy c = true) : isAlphaPy c = false := by
  rcases isSpacePy_cases h with rfl|rfl|rfl|rfl|rfl|rfl <;> decide

theorem removeNoiseCore_subset (cs : List Char) : ∀ c ∈ removeNoiseCore cs, c ∈ cs := by
  intro c hc
  rw [removeNoiseCore] at hc
  have h1 := mapChunks_mem (P := fun _ => False)
    (fun g c hcg => Or.inl (linkChunkF_subset _ g c hcg)) _ c hc
  rcases h1 with h1 | h1
  swap; · exact absurd h1 not_false
  have h2 := mapChunks_mem (P := fun _ => False)
    (fun g c hcg => Or.inl (mentionChunk_subset g c hcg)) _ c h1
  rcases h2 with h2 | h2
  swap; · exact absurd h2 not_false
  have h3 := mapChunks_mem (P := fun _ => False)
    (fun g c hcg => Or.inl (emailChunk_subset g c hcg)) _ c h2
  rcases h3 with h3 | h3
  swap; · exact absurd h3 not_false
  exact collapseRepeats_subset cs c h3

/-! ## No uppercase characters reach the negation handler -/

theorem expandChunk_mem (g : List Char) :
    ∀ c ∈ expandChunk g, c ∈ g ∨ ∃ kv ∈ contractionData, c ∈ kv.2 := by
  rcases hf : contractionData.find? (fun p => p.1 == g) with _ | p
  · rw [expandChunk, hf]
    exact fun c hc => Or.inl hc
  · rw [expandChunk, hf]
    intro c hc
    exact Or.inr ⟨p, List.mem_of_find?_eq_some hf, hc⟩

theorem contractionValues_noUpper :
    ∀ kv ∈ contractionData, ∀ c ∈ kv.2, isUpperAlpha c = false := by decide

theorem noUpper_expand {l : List Char} (h : ∀ c ∈ l, isUpperAlpha c = false) :
    ∀ c ∈ mapChunks expandChunk l, isUpperAlpha c = false := by
  intro c hc
  rcases mapChunks_mem (P := fun c => ∃ kv ∈ contractionData, c ∈ kv.2)
    expandChunk_mem l c hc with h1 | ⟨kv, hkv, hckv⟩
  · exact h c h1
  · exact contractionValues_noUpper kv hkv c hckv

theorem noUpper_stopwords {l : List Char} (h : ∀ c ∈ l, isUpperAlpha c = false)
    (nk : Bool) : ∀ c ∈ removeStopwordsCore nk l, isUpperAlpha c = false := by
  intro c hc
  rw [removeStopwordsCore] at hc
  rcases joinSpace_mem _ c hc with rfl | ⟨t, ht, hct⟩
  · decide
  · exact h c (pySplit_subset l t (List.mem_of_mem_filter ht) c hct)

/-- The string handed to `negation_handle` (or to `remove_non_alpha` when
`handle_neg` is off) contains no uppercase character. -/
theorem noUpper_preNeg (s : String) :
    ∀ c ∈ removeNoiseCore (mapChunks expandChunk (s.data.map pyToLower)),
      isUpperAlpha c = false := by
  intro c hc
  have h1 := removeNoiseCore_subset _ c hc
  have h2 := noUpper_expand (l := s.data.map pyToLower) ?_ c h1
  · exact h2
  · intro d hd
    rcases List.mem_map.1 hd with ⟨e, _, rfl⟩
    exact pyToLower_not_upper e

/-! ## Inversion of a successful negation match -/

theorem cueListData_noUpper :
    ∀ cue ∈ cueListData, ∀ c ∈ cue, isUpperAlpha c = false := by decide

theorem cueListData_nonempty : ∀ cue ∈ cueListData, cue ≠ [] := by decide

theorem headD_dropWhile_false (p : Char → Bool) {d : Char} (hd : p d = false) :
    ∀ l : List Char, p ((l.dropWhile p).headD d) = false := by
  intro l
  induction l with
  | nil => simpa
  | cons c l ih =>
    rw [List.dropWhile_cons]
    by_cases h : p c
    · rw [if_pos h]; exact ih
    · rw [if_neg h]; simpa using h

theorem mem_takeWhile_sat {p : Char → Bool} {l : List Char} :
    ∀ c ∈ l.takeWhile p, p c = true := by
  induction l with
  | nil => simp
  | cons d l ih =>
    rw [List.takeWhile_cons]
    by_cases h : p d
    · rw [if_pos h]
      intro c hc
      rcases List.mem_cons.1 hc with rfl | hc
      · exact h
      · exact ih c hc
    · rw [if_neg h]; simp

theorem tryCue_some {prev : Option Char} {cs emit : List Char} {lc : Char}
    {rest : List Char} (h : tryCue prev cs = some (emit, lc, rest)) :
    ∃ cue ws w, cue ∈ cueListData ∧
      emit = cue ++ ws ++ ('N' :: 'E' :: 'G' :: w) ∧
      cs = cue ++ ws ++ w ++ rest ∧
      ws ≠ [] ∧ (∀ c ∈ ws, isSpacePy c = true) ∧
      w ≠ [] ∧ (∀ c ∈ w, isLowerAlpha c = true) ∧
      lc = w.getLastD 'a' ∧
      isLowerAlpha (rest.headD ' ') = false := by
  rw [tryCue] at h
  by_cases hb : boundaryBefore prev = true
  swap
  · rw [if_neg hb] at h; exact absurd h (by simp)
  rw [if_pos hb] at h
  obtain ⟨cue, hcue, hm⟩ := List.exists_of_findSome?_eq_some h
  rcases hmc : matchCue cs cue with _ | trip
  · rw [hmc] at hm; exact absurd hm (by simp)
  rw [hmc] at hm
  simp only [Option.map_some'] at hm
  obtain ⟨ws, w, r3⟩ := trip
  rw [matchCue] at hmc
  by_cases htake : (cs.take cue.length == cue) = true
  swap
  · rw [if_neg htake] at hmc; exact absurd hmc (by simp)
  rw [if_pos htake] at hmc
  by_cases hempty : ((cs.drop cue.length).takeWhile isSpacePy).isEmpty ||
      (((cs.drop cue.length).dropWhile isSpacePy).takeWhile isLowerAlpha).isEmpty
  · rw [if_pos hempty] at hmc; exact absurd hmc (by simp)
  rw [if_neg hempty] at hmc
  obtain ⟨h1, h2, h3⟩ : ws = (cs.drop cue.length).takeWhile isSpacePy ∧
      w = ((cs.drop cue.length).dropWhile isSpacePy).takeWhile isLowerAlpha ∧
      r3 = ((cs.drop cue.length).dropWhile isSpacePy).dropWhile isLowerAlpha := by
    have := hmc
    simp only [Option.some_inj] at this
    exact ⟨congrArg (fun t => t.1) this.symm,
      congrArg (fun t => t.2.1) this.symm, congrArg (fun t => t.2.2) this.symm⟩
  obtain ⟨hemit, hlc, hrest⟩ : emit = cue ++ ws ++ ('N' :: 'E' :: 'G' :: w) ∧
      lc = w.getLastD 'a' ∧ rest = r3 := by
    simp only [Option.some_inj] at hm
    exact ⟨congrArg (fun t => t.1) hm.symm, congrArg (fun t => t.2.1) hm.symm,
      congrArg (fun t => t.2.2) hm.symm⟩
  simp only [Bool.or_eq_true, not_or, Bool.not_eq_true] at hempty
  have hempty' : ws.isEmpty = false ∧ w.isEmpty = false := by
    rw [h1, h2]; exact hempty
  refine ⟨cue, ws, w, hcue, hemit, ?_, ?_, ?_, ?_, ?_, hlc, ?_⟩
  · have htake' : cs.take cue.length = cue := by simpa using htake
    have hcs : cs = cue ++ cs.drop cue.length := by
      have h0 := List.take_append_drop cue.length cs
      rw [htake'] at h0
      exact h0.symm
    have hr1 : cs.drop cue.length = ws ++ w ++ r3 := by
      rw [h1, h2, h3]
      rw [List.append_assoc, List.takeWhile_append_dropWhile,
        List.takeWhile_append_dropWhile]
    rw [hrest]
    conv_lhs => rw [hcs, hr1]
    simp [List.append_assoc]
  · simpa using hempty'.1
  · rw [h1]; exact fun c hc => mem_takeWhile_sat c hc
  · simpa using hempty'.2
  · rw [h2]; exact fun c hc => mem_takeWhile_sat c hc
  · rw [hrest, h3]
    exact headD_dropWhile_false isLowerAlpha (by decide) _

/-! ## Shape of the negation handler's output -/

/-- The output of `negation_handle` on uppercase-free input is an
interleaving of uppercase-free characters and tagged blocks: a nonempty
whitespace run, the marker `NEG`, and a nonempty lowercase word. -/
inductive NegShape : List Char → Prop where
  | nil : NegShape []
  | plain {c : Char} {rest : List Char} :
      isUpperAlpha c = false → NegShape rest → NegShape (c :: rest)
  | block {s w rest : List Char} :
      s ≠ [] → (∀ c ∈ s, isSpacePy c = true) →
      w ≠ [] → (∀ c ∈ w, isLowerAlpha c = true) →
      NegShape rest → NegShape (s ++ 'N' :: 'E' :: 'G' :: (w ++ rest))

theorem NegShape.append_plain {a rest : List Char}
    (ha : ∀ c ∈ a, isUpperAlpha c = false) (h : NegShape rest) :
    NegShape (a ++ rest) := by
  induction a with
  | nil => simpa
  | cons c a ih =>
    rw [List.cons_append]
    exact NegShape.plain (ha c (by simp)) (ih (fun d hd => ha d (by simp [hd])))

theorem negShape_of_noUpper {cs : List Char}
    (h : ∀ c ∈ cs, isUpperAlpha c = false) : NegShape cs := by
  have := NegShape.append_plain h NegShape.nil
  simpa using this

theorem negScanF_shape (fuel : Nat) : ∀ (prev : Option Char) (cs : List Char),
    (∀ c ∈ cs, isUpperAlpha c = false) → NegShape (negScanF fuel prev cs) := by
  induction fuel with
  | zero => intro prev cs h; exact negShape_of_noUpper h
  | succ fuel ih =>
    intro prev cs h
    match cs with
    | [] => exact NegShape.nil
    | c :: cs' =>
      rcases htry : tryCue prev (c :: cs') with _ | m
      · rw [negScanF, htry]
        exact NegShape.plain (h c (by simp))
          (ih _ _ (fun d hd => h d (by simp [hd])))
      · obtain ⟨emit, lc, rest⟩ := m
        obtain ⟨cue, ws, w, hcue, hemit, hdecomp, hws, hwssp, hw, hwlow, hlc,
          hresthd⟩ := tryCue_some htry
        rw [negScanF, htry]
        dsimp only
        have hrestU : ∀ d ∈ rest, isUpperAlpha d = false := by
          intro d hd
          apply h
          rw [hdecomp]
          simp [hd]
        have hshape := ih (some lc) rest hrestU
        have hblock : NegShape (ws ++ 'N' :: 'E' :: 'G' ::
            (w ++ negScanF fuel (some lc) rest)) :=
          NegShape.block hws hwssp hw hwlow hshape
        have hcueU : ∀ d ∈ cue, isUpperAlpha d = false :=
          cueListData_noUpper cue hcue
        have := NegShape.append_plain hcueU hblock
        rw [hemit]
        simpa [List.append_assoc] using this

theorem negationHandleCore_shape {cs : List Char}
    (h : ∀ c ∈ cs, isUpperAlpha c = false) : NegShape (negationHandleCore cs) :=
  negScanF_shape cs.length none cs h

/-! ## From `NegShape` to the token shape after `remove_non_alpha` -/

/-- A final token: either all lowercase, or the marker `NEG` prefixed (with
nothing in between) to a nonempty lowercase word. -/
def goodTok (t : List Char) : Prop :=
  (t ≠ [] ∧ ∀ c ∈ t, isLowerAlpha c = true) ∨
  (∃ w, t = 'N' :: 'E' :: 'G' :: w ∧ w ≠ [] ∧ ∀ c ∈ w, isLowerAlpha c = true)

theorem alphaOrSpace_of_notUpper {c : Char} (h : isUpperAlpha c = false) :
    (isLowerAlpha c = true ∧ alphaOrSpace c = c) ∨
    (isLowerAlpha c = false ∧ alphaOrSpace c = ' ') := by
  by_cases hl : isLowerAlpha c = true
  · exact Or.inl ⟨hl, by simp [alphaOrSpace, isAlphaPy, hl]⟩
  · refine Or.inr ⟨by simpa using hl, ?_⟩
    have hl' : isLowerAlpha c = false := by simpa using hl
    simp [alphaOrSpace, isAlphaPy, hl', h]

theorem splitR_map_shape {z : List Char} (h : NegShape z) :
    (∀ t ∈ (splitR (z.map alphaOrSpace)).1, goodTok t) ∧
    (∀ c ∈ (splitR (z.map alphaOrSpace)).2, isLowerAlpha c = true) := by
  induction h with
  | nil => simp [splitR]
  | @plain c rest hc hrest ih =>
    rw [List.map_cons]
    rcases alphaOrSpace_of_notUpper hc with ⟨hl, he⟩ | ⟨hl, he⟩
    · rw [he, splitR_cons_nonspace (lower_not_space hl)]
      refine ⟨ih.1, ?_⟩
      intro d hd
      rcases List.mem_cons.1 hd with rfl | hd
      · exact hl
      · exact ih.2 d hd
    · rw [he, splitR_cons_space (by decide)]
      refine ⟨?_, by simp⟩
      simp only [pySplit]
      by_cases h2 : (splitR (rest.map alphaOrSpace)).2 = []
      · simpa [h2] using ih.1
      · simp only [h2, if_neg]
        intro t ht
        rcases List.mem_cons.1 ht with rfl | ht
        · exact Or.inl ⟨h2, ih.2⟩
        · exact ih.1 t ht
  | @block s w rest hs hssp hw hwlow hrest ih =>
    have hmap : (s ++ 'N' :: 'E' :: 'G' :: (w ++ rest)).map alphaOrSpace =
        s.map alphaOrSpace ++ ('N' :: 'E' :: 'G' :: w) ++ rest.map alphaOrSpace := by
      have hwm : w.map alphaOrSpace = w := by
        have hcong : ∀ d ∈ w, alphaOrSpace d = id d := by
          intro d hd
          have := hwlow d hd
          simp [alphaOrSpace, isAlphaPy, this]
        rw [List.map_congr_left hcong, List.map_id]
      simp only [List.map_append, List.map_cons, hwm, List.append_assoc,
        show alphaOrSpace 'N' = 'N' from by decide,
        show alphaOrSpace 'E' = 'E' from by decide,
        show alphaOrSpace 'G' = 'G' from by decide, List.cons_append]
    rw [hmap]
    have hsm_ne : s.map alphaOrSpace ≠ [] := by
      intro hx
      exact hs (List.map_eq_nil_iff.1 hx)
    have hsm_sp : ∀ c ∈ s.map alphaOrSpace, isSpacePy c = true := by
      intro d hd
      rcases List.mem_map.1 hd with ⟨e, he, rfl⟩
      have hsp := hssp e he
      have : alphaOrSpace e = ' ' := by
        simp [alphaOrSpace, space_not_alpha hsp]
      rw [this]; decide
    obtain ⟨c0, s0, hs0⟩ := List.exists_cons_of_ne_nil hsm_ne
    have hsplit1 : splitR (s.map alphaOrSpace ++ ('N' :: 'E' :: 'G' :: w)
        ++ rest.map alphaOrSpace) =
        (pySplit (('N' :: 'E' :: 'G' :: w) ++ rest.map alphaOrSpace), []) := by
      rw [List.append_assoc, hs0]
      exact splitR_append_spaces c0 s0 (hs0 ▸ hsm_sp) _
    have hnsp : ∀ c ∈ 'N' :: 'E' :: 'G' :: w, isSpacePy c = false := by
      intro d hd
      rcases List.mem_cons.1 hd with rfl | hd
      · decide
      rcases List.mem_cons.1 hd with rfl | hd
      · decide
      rcases List.mem_cons.1 hd with rfl | hd
      · decide
      · exact lower_not_space (hwlow d hd)
    have hsplit2 : splitR (('N' :: 'E' :: 'G' :: w) ++ rest.map alphaOrSpace) =
        ((splitR (rest.map alphaOrSpace)).1,
          ('N' :: 'E' :: 'G' :: w) ++ (splitR (rest.map alphaOrSpace)).2) :=
      splitR_append_nonspace hnsp _
    rw [hsplit1]
    constructor
    · simp only [pySplit, hsplit2]
      rw [if_neg (by simp)]
      intro t ht
      rcases List.mem_cons.1 ht with rfl | ht
      · refine Or.inr ⟨w ++ (splitR (rest.map alphaOrSpace)).2, by simp, ?_, ?_⟩
        · exact fun hx => hw (List.append_eq_nil.1 hx).1
        · intro d hd
          rcases List.mem_append.1 hd with hd | hd
          · exact hwlow d hd
          · exact ih.2 d hd
      · exact ih.1 t ht
    · simp

theorem pySplit_map_shape {z : List Char} (h : NegShape z) :
    ∀ t ∈ pySplit (z.map alphaOrSpace), goodTok t := by
  simp only [pySplit]
  by_cases h2 : (splitR (z.map alphaOrSpace)).2 = []
  · simpa [h2] using (splitR_map_shape h).1
  · simp only [h2, if_neg]
    intro t ht
    rcases List.mem_cons.1 ht with rfl | ht
    · exact Or.inl ⟨h2, (splitR_map_shape h).2⟩
    · exact (splitR_map_shape h).1 t ht

/-! ## A bridge from `data_cleaning` to the character-level stages -/

/-- The character list reaching `remove_non_alpha` inside `data_cleaning`
(stages 1-4: lowercase, contractions, noise, optional negation pass). -/
def preAlpha (hn : Bool) (s : String) : List Char :=
  cond hn
    (negationHandleCore (removeStopwordsCore true
      (removeNoiseCore (mapChunks expandChunk (s.data.map pyToLower)))))
    (removeNoiseCore (mapChunks expandChunk (s.data.map pyToLower)))

theorem mk_data (l : List Char) : (⟨l⟩ : String).data = l := rfl

theorem expand_contractions_data (t : String) :
    (expand_contractions t).data = mapChunks expandChunk t.data := rfl

theorem remove_noise_texts_data (t : String) :
    (remove_noise_texts t).data = removeNoiseCore t.data := rfl

theorem remove_stopwords_data (t : String) (nk : Bool) :
    (remove_stopwords t nk).data = removeStopwordsCore nk t.data := rfl

theorem negation_handle_data (t : String) :
    (negation_handle t).data = negationHandleCore t.data := rfl

theorem remove_non_alpha_data (t : String) :
    (remove_non_alpha t).data = t.data.map alphaOrSpace := rfl

theorem remove_short_words_data (t : String) :
    (remove_short_words t).data = removeShortWordsCore t.data := rfl

theorem remove_spaces_data (t : String) :
    (remove_spaces t).data = removeSpacesCore t.data := rfl

theorem data_cleaning_data (posTag : List String → List (String × String))
    (wnLemmatize : String → Char → String) (s : String) (hn ras : Bool) :
    (data_cleaning posTag wnLemmatize s hn ras false).data =
      pyStrip (cond ras
          (removeStopwordsCore false (removeSpacesCore (removeShortWordsCore
            ((preAlpha hn s).map alphaOrSpace))))
          (removeSpacesCore (removeShortWordsCore
            ((preAlpha hn s).map alphaOrSpace)))) := by
  cases hn <;> cases ras
  · rw [show data_cleaning posTag wnLemmatize s false false false =
        (⟨pyStrip (remove_spaces (remove_short_words (remove_non_alpha
          (remove_noise_texts (expand_contractions
            ⟨s.data.map pyToLower⟩))))).data⟩ : String) from rfl]
    simp only [mk_data, remove_spaces_data, remove_short_words_data,
      remove_non_alpha_data, remove_noise_texts_data, expand_contractions_data,
      preAlpha, cond]
  · rw [show data_cleaning posTag wnLemmatize s false true false =
        (⟨pyStrip (remove_stopwords (remove_spaces (remove_short_words
          (remove_non_alpha (remove_noise_texts (expand_contractions
            ⟨s.data.map pyToLower⟩))))) false).data⟩ : String) from rfl]
    simp only [mk_data, remove_stopwords_data, remove_spaces_data,
      remove_short_words_data, remove_non_alpha_data, remove_noise_texts_data,
      expand_contractions_data, preAlpha, cond]
  · rw [show data_cleaning posTag wnLemmatize s true false false =
        (⟨pyStrip (remove_spaces (remove_short_words (remove_non_alpha
          (negation_handle (remove_stopwords (remove_noise_texts
            (expand_contractions ⟨s.data.map pyToLower⟩)) true))))).data⟩ :
              String) from rfl]
    simp only [mk_data, remove_spaces_data, remove_short_words_data,
      remove_non_alpha_data, negation_handle_data, remove_stopwords_data,
      remove_noise_texts_data, expand_contractions_data, preAlpha, cond]
  · rw [show data_cleaning posTag wnLemmatize s true true false =
        (⟨pyStrip (remove_stopwords (remove_spaces (remove_short_words
          (remove_non_alpha (negation_handle (remove_stopwords
            (remove_noise_texts (expand_contractions ⟨s.data.map pyToLower⟩))
              true))))) false).data⟩ : String) from rfl]
    simp only [mk_data, remove_stopwords_data, remove_spaces_data,
      remove_short_words_data, remove_non_alpha_data, negation_handle_data,
      remove_noise_texts_data, expand_contractions_data, preAlpha, cond]

theorem preAlpha_shape (hn : Bool) (s : String) : NegShape (preAlpha hn s) := by
  cases hn
  · exact negShape_of_noUpper (noUpper_preNeg s)
  · unfold preAlpha
    apply negationHandleCore_shape
    exact noUpper_stopwords (noUpper_preNeg s) true

/-! ## Stubs for the external POS tagger and WordNet lemmatizer -/

/-- A trivial POS tagger, used to instantiate concrete pipeline runs (all
of which disable the lemmatizer branch). -/
def posTagStub : List String → List (String × String) := fun _ => []

/-- A trivial lemma function, used to instantiate concrete pipeline runs. -/
def wnLemmatizeStub : String → Char → String := fun w _ => w

/-! ## The claims -/

set_option maxRecDepth 200000 in
/-- C1, counterexample: calling `data_cleaning` on the example tweet with
`handle_neg=True` and `remove_all_stopword=True` does not return the string
the claim asserts (those flags remove the stopwords and produce `NEGlike`;
the claimed string is the output of the notebook's example call, which
passes no flags at all). -/
theorem c1_counterexample :
    data_cleaning posTagStub wnLemmatizeStub
        "Just got an email from prankster@troll.com, I think it's @Jordan's troll. He told me in the mail that he really don't like my dog, but he did like a cat. #IHateJordan"
        true true false ≠
      "just got an email from think it is troll he told me in the mail that he really do not like my dog but he did like cat" := by
  decide

set_option maxRecDepth 200000 in
/-- C1, amended: with the default flags (`handle_neg=False`,
`remove_all_stopword=False`), exactly as in the notebook's example call,
`data_cleaning` on the example tweet returns exactly the claimed string. -/
theorem c1_amended_default_flags :
    data_cleaning posTagStub wnLemmatizeStub
        "Just got an email from prankster@troll.com, I think it's @Jordan's troll. He told me in the mail that he really don't like my dog, but he did like a cat. #IHateJordan" =
      "just got an email from think it is troll he told me in the mail that he really do not like my dog but he did like cat" := by
  decide

/-- C2: for every input and every configuration with `is_lemmatized=False`,
the output of `data_cleaning` is a single-space join of tokens, each of
which is either a nonempty all-lowercase word or the literal marker `NEG`
prefixed (with no intervening space) to a nonempty lowercase word; in
particular every character is a lowercase letter, a space, or one of
`'N'`, `'E'`, `'G'`, and there is no leading/trailing whitespace and no
run of two spaces. -/
theorem c2_output_token_shape (posTag : List String → List (String × String))
    (wnLemmatize : String → Char → String) (s : String) (hn ras : Bool) :
    ∃ ts : List (List Char),
      (data_cleaning posTag wnLemmatize s hn ras false).data = joinSpace ts ∧
      (∀ t ∈ ts, goodTok t) ∧
      ∀ c ∈ (data_cleaning posTag wnLemmatize s hn ras false).data,
        isLowerAlpha c = true ∨ c = ' ' ∨ c = 'N' ∨ c = 'E' ∨ c = 'G' := by
  obtain ⟨ts, hgood, hmem, heq⟩ :=
    finalize_structure ((preAlpha hn s).map alphaOrSpace) ras
  have hshape := preAlpha_shape hn s
  have htok : ∀ t ∈ ts, goodTok t := fun t ht =>
    pySplit_map_shape hshape t (hmem t ht).1
  refine ⟨ts, ?_, htok, ?_⟩
  · rw [data_cleaning_data]
    exact heq
  · intro c hc
    rw [data_cleaning_data, heq] at hc
    rcases joinSpace_mem ts c hc with rfl | ⟨t, ht, hct⟩
    · exact Or.inr (Or.inl rfl)
    · rcases htok t ht with ⟨_, hlow⟩ | ⟨w, rfl, hwne, hwlow⟩
      · exact Or.inl (hlow c hct)
      · rcases List.mem_cons.1 hct with rfl | hct
        · exact Or.inr (Or.inr (Or.inl rfl))
        rcases List.mem_cons.1 hct with rfl | hct
        · exact Or.inr (Or.inr (Or.inr (Or.inl rfl)))
        rcases List.mem_cons.1 hct with rfl | hct
        · exact Or.inr (Or.inr (Or.inr (Or.inr rfl)))
        · exact Or.inl (hwlow c hct)

set_option maxRecDepth 40000 in
/-- C3: `negation_handle` applied to
"I do not like the food. I like the movie." returns exactly
"I do not NEGlike the food. I like the movie.". -/
theorem c3_negation_handle_example :
    negation_handle "I do not like the food. I like the movie." =
      "I do not NEGlike the food. I like the movie." := by
  decide

/-- Modelled from the spec (section 4.1): the ten steps of the Text
Normalizer as an explicit composition in the spec's order — lowercase;
contraction expansion; noise stripping; if `handle_negation`, stopword
removal preserving not/no/nor followed by the negation handler;
non-alphabetic replacement; dropping words of length ≤ 1; whitespace-run
collapsing; if `lemmatize`, lemmatization; if `remove_all_stopwords`,
removal of all stopwords; trimming. -/
def specNormalize (posTag : List String → List (String × String))
    (wnLemmatize : String → Char → String)
    (handleNegation removeAllStopwords lemmatizeFlag : Bool) : String → String :=
  (fun s => (⟨pyStrip s.data⟩ : String)) ∘
  (fun s => if removeAllStopwords then remove_stopwords s false else s) ∘
  (fun s => if lemmatizeFlag then lemmatize posTag wnLemmatize s else s) ∘
  remove_spaces ∘
  remove_short_words ∘
  remove_non_alpha ∘
  (fun s => if handleNegation then negation_handle (remove_stopwords s true) else s) ∘
  remove_noise_texts ∘
  expand_contractions ∘
  (fun s => (⟨s.data.map pyToLower⟩ : String))

/-- C5: `data_cleaning` is the composition of the pipeline stages in the
spec's fixed order, for every input and every configuration. -/
theorem c5_pipeline_order (posTag : List String → List (String × String))
    (wnLemmatize : String → Char → String) (s : String) (hn ras lem : Bool) :
    data_cleaning posTag wnLemmatize s hn ras lem =
      specNormalize posTag wnLemmatize hn ras lem s := by
  cases hn <;> cases ras <;> cases lem <;> rfl

set_option maxRecDepth 40000 in
/-- C7, counterexample: the collapsed word "feelings" does not survive in
`remove_noise_texts("...@someone_on_Twitter...feelingssssssssssss...#Tag")`
— it is not even a substring of the output. -/
theorem c7_counterexample :
    ¬ (('f' :: 'e' :: 'e' :: 'l' :: 'i' :: 'n' :: 'g' :: 's' :: []) <:+:
      (remove_noise_texts
        "...@someone_on_Twitter...feelingssssssssssss...#Tag").data) := by
  decide

set_option maxRecDepth 40000 in
/-- C7, amended: `remove_noise_texts` on that input returns the empty
string: the input contains no whitespace, so after collapsing the repeated
characters the whole text is one `\S+` token with an interior `'@'`, and
the email pattern `\S+@\S+` deletes it entirely (taking the mention, the
word and the hashtag with it). -/
theorem c7_amended_empty :
    remove_noise_texts "...@someone_on_Twitter...feelingssssssssssss...#Tag" =
      "" := by
  decide

theorem alphaOrSpace_idem (c : Char) :
    alphaOrSpace (alphaOrSpace c) = alphaOrSpace c := by
  by_cases h : isAlphaPy c = true
  · simp [alphaOrSpace, h]
  · have h' : isAlphaPy c = false := by simpa using h
    have hin : alphaOrSpace c = ' ' := by
      rw [alphaOrSpace, if_neg (by simp [h'])]
    rw [hin]
    decide

/-- C8: the non-alphabetic stripping stage is idempotent — running
`remove_non_alpha` on its own output is a no-op. -/
theorem c8_remove_non_alpha_idempotent (s : String) :
    remove_non_alpha (remove_non_alpha s) = remove_non_alpha s := by
  show (⟨(s.data.map alphaOrSpace).map alphaOrSpace⟩ : String) =
    ⟨s.data.map alphaOrSpace⟩
  apply congrArg
  rw [List.map_map]
  exact List.map_congr_left (fun c _ =>
    (Function.comp_apply).trans (alphaOrSpace_idem c))

/-- The notebook's post-processing of the cleaned data frame: clean every
record's text, then keep exactly the rows whose cleaned text is nonempty,
each with its own label (`df[df['neg_handled_text'] != '']`). -/
def cleanedRecords {α : Type} (posTag : List String → List (String × String))
    (wnLemmatize : String → Char → String) (hn ras lem : Bool)
    (rows : List (String × α)) : List (String × α) :=
  (rows.map (fun r => (data_cleaning posTag wnLemmatize r.1 hn ras lem, r.2))).filter
    (fun r => !(r.1 == ""))

/-- C9: the post-processing removes exactly the records whose cleaned text
is empty, text and label together, and for every surviving record the
text/label pairing comes from the same original record, in order. -/
theorem c9_record_filter_alignment {α : Type}
    (posTag : List String → List (String × String))
    (wnLemmatize : String → Char → String) (hn ras lem : Bool)
    (rows : List (String × α)) :
    cleanedRecords posTag wnLemmatize hn ras lem rows =
      (rows.filter
        (fun r => !(data_cleaning posTag wnLemmatize r.1 hn ras lem == ""))).map
        (fun r => (data_cleaning posTag wnLemmatize r.1 hn ras lem, r.2)) := by
  induction rows with
  | nil => rfl
  | cons r rows ih =>
    simp only [cleanedRecords, List.map_cons, List.filter_cons] at ih ⊢
    by_cases h : (data_cleaning posTag wnLemmatize r.1 hn ras lem == "") = true
    · simp only [h, Bool.not_true]
      rw [if_neg (by simp), if_neg (by simp)]
      exact ih
    · have h' : (data_cleaning posTag wnLemmatize r.1 hn ras lem == "") = false := by
        simpa using h
      simp only [h', Bool.not_false]
      rw [if_pos trivial, if_pos trivial, List.map_cons, ih]

/-- C10: with `is_lemmatized=False`, every whitespace-separated token of
the output of `data_cleaning` has length at least 2: the short-word stage
drops all words of length ≤ 1 and no later stage reintroduces one. -/
theorem c10_min_token_length (posTag : List String → List (String × String))
    (wnLemmatize : String → Char → String) (s : String) (hn ras : Bool) :
    ∀ t ∈ pySplit (data_cleaning posTag wnLemmatize s hn ras false).data,
      2 ≤ t.length := by
  obtain ⟨ts, hgood, hmem, heq⟩ :=
    finalize_structure ((preAlpha hn s).map alphaOrSpace) ras
  rw [data_cleaning_data, heq, pySplit_joinSpace ts hgood]
  exact fun t ht => (hmem t ht).2

set_option maxRecDepth 40000 in
/-- C10, witness: on the concrete input "hello world" the token "hello" of
the output has length at least 2. -/
theorem c10_min_token_length_witness :
    2 ≤ (['h', 'e', 'l', 'l', 'o'] : List Char).length :=
  c10_min_token_length posTagStub wnLemmatizeStub "hello world" false false
    ['h', 'e', 'l', 'l', 'o'] (by decide)

/-! ## Degenerate inputs (no letters at all) empty out -/

theorem contractionKeys_haveAlpha :
    ∀ kv ∈ contractionData, ∃ c ∈ kv.1, isAlphaPy c = true := by decide

theorem expandChunk_id_of_noAlpha {g : List Char}
    (h : ∀ c ∈ g, isAlphaPy c = false) : expandChunk g = g := by
  have hf : contractionData.find? (fun p => p.1 == g) = none := by
    rw [List.find?_eq_none]
    intro kv hkv hbeq
    have hkg : kv.1 = g := by simpa using hbeq
    obtain ⟨c, hc, hca⟩ := contractionKeys_haveAlpha kv hkv
    rw [hkg] at hc
    rw [h c hc] at hca
    exact Bool.noConfusion hca
  rw [expandChunk, hf]

theorem mapChunks_id_on {f : List Char → List Char} {l : List Char}
    (h : ∀ g ∈ groupRunsBy (fun a b => isSpacePy a = isSpacePy b) l, f g = g) :
    mapChunks f l = l := by
  rw [mapChunks]
  have hcong : ∀ g ∈ groupRunsBy (fun a b => isSpacePy a = isSpacePy b) l,
      (fun g => match g with
        | [] => ([] : List Char)
        | c :: _ => if isSpacePy c then g else f g) g = id g := by
    intro g hg
    match g with
    | [] => rfl
    | c :: g' =>
      dsimp only
      by_cases hc : isSpacePy c = true
      · rw [if_pos hc]; rfl
      · rw [if_neg (by simpa using hc)]
        exact h _ hg
  rw [List.map_congr_left hcong, List.map_id, groupRunsBy_flatten]

theorem cueListData_has_lower :
    ∀ cue ∈ cueListData, ∃ c ∈ cue, isLowerAlpha c = true := by decide

theorem tryCue_none_of_noLower {prev : Option Char} {cs : List Char}
    (h : ∀ c ∈ cs, isLowerAlpha c = false) : tryCue prev cs = none := by
  rw [tryCue]
  by_cases hb : boundaryBefore prev = true
  swap
  · rw [if_neg hb]
  rw [if_pos hb]
  rw [List.findSome?_eq_none_iff]
  intro cue hcue
  have hmc : matchCue cs cue = none := by
    by_cases ht : (cs.take cue.length == cue) = true
    · exfalso
      obtain ⟨c, hc, hca⟩ := cueListData_has_lower cue hcue
      have hceq : cs.take cue.length = cue := by simpa using ht
      have hcin : c ∈ cs := (List.take_prefix cue.length cs).subset
        (by rw [hceq]; exact hc)
      rw [h c hcin] at hca
      exact Bool.noConfusion hca
    · rw [matchCue, if_neg ht]
  rw [hmc]
  rfl

theorem negScanF_id_of_noLower (fuel : Nat) : ∀ (prev : Option Char) (cs : List Char),
    (∀ c ∈ cs, isLowerAlpha c = false) → negScanF fuel prev cs = cs := by
  induction fuel with
  | zero => intro _ _ _; rfl
  | succ fuel ih =>
    intro prev cs h
    match cs with
    | [] => rfl
    | c :: cs' =>
      rw [negScanF, tryCue_none_of_noLower h]
      rw [ih (some c) cs' (fun d hd => h d (by simp [hd]))]

theorem splitR_all_space {l : List Char} (h : ∀ c ∈ l, isSpacePy c = true) :
    splitR l = ([], []) := by
  induction l with
  | nil => rfl
  | cons c l ih =>
    rw [splitR_cons_space (h c (by simp))]
    have h2 := ih (fun d hd => h d (by simp [hd]))
    simp [pySplit, h2]

theorem pySplit_all_space {l : List Char} (h : ∀ c ∈ l, isSpacePy c = true) :
    pySplit l = [] := by
  simp [pySplit, splitR_all_space h]

theorem emptyAfterShort {x : List Char} (hX : ∀ c ∈ x, isAlphaPy c = false) :
    removeShortWordsCore (x.map alphaOrSpace) = [] := by
  rw [removeShortWordsCore]
  have hsp : ∀ c ∈ x.map alphaOrSpace, isSpacePy c = true := by
    intro c hc
    rcases List.mem_map.1 hc with ⟨e, he, rfl⟩
    rw [alphaOrSpace, if_neg (by simp [hX e he])]
    decide
  rw [pySplit_all_space hsp]
  rfl

theorem lower_imp_alpha {c : Char} (h : isLowerAlpha c = true) :
    isAlphaPy c = true := by
  rw [isAlphaPy, h]
  rfl

theorem noAlpha_lower_id {l : List Char} (h : ∀ c ∈ l, isAlphaPy c = false) :
    l.map pyToLower = l := by
  have hcong : ∀ c ∈ l, pyToLower c = id c := by
    intro c hc
    have hu : isUpperAlpha c = false := by
      have h2 := h c hc
      rw [isAlphaPy, Bool.or_eq_false_iff] at h2
      exact h2.2
    rw [pyToLower, if_neg (by simp [hu])]
    rfl
  rw [List.map_congr_left hcong, List.map_id]

theorem noAlpha_stopwords {l : List Char} (h : ∀ c ∈ l, isAlphaPy c = false)
    (nk : Bool) : ∀ c ∈ removeStopwordsCore nk l, isAlphaPy c = false := by
  intro c hc
  rw [removeStopwordsCore] at hc
  rcases joinSpace_mem _ c hc with rfl | ⟨t, ht, hct⟩
  · decide
  · exact h c (pySplit_subset l t (List.mem_of_mem_filter ht) c hct)

/-- Stages 1-3 on a letter-free string yield a letter-free string. -/
theorem preNoAlpha_noise {s : String} (h : ∀ c ∈ s.data, isAlphaPy c = false) :
    ∀ c ∈ removeNoiseCore (mapChunks expandChunk (s.data.map pyToLower)),
      isAlphaPy c = false := by
  rw [noAlpha_lower_id h]
  have hexp : mapChunks expandChunk s.data = s.data := by
    apply mapChunks_id_on
    intro g hg
    apply expandChunk_id_of_noAlpha
    intro c hc
    apply h
    rw [← groupRunsBy_flatten (fun a b => isSpacePy a = isSpacePy b) s.data]
    exact List.mem_flatten.2 ⟨g, hg, hc⟩
  rw [hexp]
  exact fun c hc => h c (removeNoiseCore_subset _ c hc)

theorem short_empty_noneg (s : String) (h : ∀ c ∈ s.data, isAlphaPy c = false) :
    (remove_short_words (remove_non_alpha (remove_noise_texts
      (expand_contractions ⟨s.data.map pyToLower⟩)))).data = [] := by
  rw [remove_short_words_data, remove_non_alpha_data, remove_noise_texts_data,
    expand_contractions_data, mk_data]
  exact emptyAfterShort (preNoAlpha_noise h)

theorem short_empty_neg (s : String) (h : ∀ c ∈ s.data, isAlphaPy c = false) :
    (remove_short_words (remove_non_alpha (negation_handle (remove_stopwords
      (remove_noise_texts (expand_contractions ⟨s.data.map pyToLower⟩))
        true)))).data = [] := by
  rw [remove_short_words_data, remove_non_alpha_data, negation_handle_data,
    remove_stopwords_data, remove_noise_texts_data, expand_contractions_data,
    mk_data]
  have hstop := noAlpha_stopwords (l := removeNoiseCore (mapChunks expandChunk
    (s.data.map pyToLower))) (preNoAlpha_noise h) true
  have hid : negationHandleCore (removeStopwordsCore true (removeNoiseCore
      (mapChunks expandChunk (s.data.map pyToLower)))) =
      removeStopwordsCore true (removeNoiseCore
      (mapChunks expandChunk (s.data.map pyToLower))) := by
    apply negScanF_id_of_noLower
    intro c hc
    have ha := hstop c hc
    by_contra hcl
    rw [Bool.not_eq_false] at hcl
    rw [lower_imp_alpha hcl] at ha
    exact Bool.noConfusion ha
  rw [hid]
  exact emptyAfterShort hstop

theorem lemmatize_data (posTag : List String → List (String × String))
    (wnLemmatize : String → Char → String) (t : String) :
    (lemmatize posTag wnLemmatize t).data = lemmatizeCore posTag wnLemmatize t.data := rfl

theorem lemmatizeCore_nil (posTag : List String → List (String × String))
    (wnLemmatize : String → Char → String) (hpt : posTag [] = []) :
    lemmatizeCore posTag wnLemmatize [] = [] := by
  simp [lemmatizeCore, pySplit, splitR, hpt, joinSpace]

theorem string_eq_empty_of_data {t : String} (h : t.data = []) : t = "" := by
  cases t with
  | mk data =>
    simp only at h
    subst h
    rfl

theorem removeSpacesCore_nil : removeSpacesCore [] = [] := rfl

theorem removeStopwordsCore_nil (nk : Bool) : removeStopwordsCore nk [] = [] := rfl

/-- C6: `data_cleaning` is a total function; on degenerate printable inputs
— the empty string, pure punctuation, digits, any string without an ASCII
letter — it returns the empty string rather than raising, for every
configuration (the external POS tagger is only required to map the empty
token list to the empty tag list, as `nltk.pos_tag` does). -/
theorem c6_degenerate_inputs_empty (posTag : List String → List (String × String))
    (wnLemmatize : String → Char → String) (s : String) (hn ras lem : Bool)
    (hpt : posTag [] = []) (h : ∀ c ∈ s.data, isAlphaPy c = false) :
    data_cleaning posTag wnLemmatize s hn ras lem = "" := by
  apply string_eq_empty_of_data
  cases hn <;> cases ras <;> cases lem
  · rw [show data_cleaning posTag wnLemmatize s false false false =
        (⟨pyStrip (remove_spaces (remove_short_words (remove_non_alpha
          (remove_noise_texts (expand_contractions
            ⟨s.data.map pyToLower⟩))))).data⟩ : String) from rfl, mk_data,
      remove_spaces_data, short_empty_noneg s h, removeSpacesCore_nil]
    rfl
  · rw [show data_cleaning posTag wnLemmatize s false false true =
        (⟨pyStrip (lemmatize posTag wnLemmatize (remove_spaces
          (remove_short_words (remove_non_alpha (remove_noise_texts
            (expand_contractions ⟨s.data.map pyToLower⟩)))))).data⟩ : String)
        from rfl, mk_data, lemmatize_data, remove_spaces_data,
      short_empty_noneg s h, removeSpacesCore_nil,
      lemmatizeCore_nil posTag wnLemmatize hpt]
    rfl
  · rw [show data_cleaning posTag wnLemmatize s false true false =
        (⟨pyStrip (remove_stopwords (remove_spaces (remove_short_words
          (remove_non_alpha (remove_noise_texts (expand_contractions
            ⟨s.data.map pyToLower⟩))))) false).data⟩ : String) from rfl, mk_data,
      remove_stopwords_data, remove_spaces_data, short_empty_noneg s h,
      removeSpacesCore_nil, removeStopwordsCore_nil]
    rfl
  · rw [show data_cleaning posTag wnLemmatize s false true true =
        (⟨pyStrip (remove_stopwords (lemmatize posTag wnLemmatize
          (remove_spaces (remove_short_words (remove_non_alpha
            (remove_noise_texts (expand_contractions
              ⟨s.data.map pyToLower⟩)))))) false).data⟩ : String) from rfl,
      mk_data, remove_stopwords_data, lemmatize_data, remove_spaces_data,
      short_empty_noneg s h, removeSpacesCore_nil,
      lemmatizeCore_nil posTag wnLemmatize hpt, removeStopwordsCore_nil]
    rfl
  · rw [show data_cleaning posTag wnLemmatize s true false false =
        (⟨pyStrip (remove_spaces (remove_short_words (remove_non_alpha
          (negation_handle (remove_stopwords (remove_noise_texts
            (expand_contractions ⟨s.data.map pyToLower⟩)) true))))).data⟩ :
          String) from rfl, mk_data,
      remove_spaces_data, short_empty_neg s h, removeSpacesCore_nil]
    rfl
  · rw [show data_cleaning posTag wnLemmatize s true false true =
        (⟨pyStrip (lemmatize posTag wnLemmatize (remove_spaces
          (remove_short_words (remove_non_alpha (negation_handle
            (remove_stopwords (remove_noise_texts (expand_contractions
              ⟨s.data.map pyToLower⟩)) true)))))).data⟩ : String) from rfl,
      mk_data, lemmatize_data, remove_spaces_data, short_empty_neg s h,
      removeSpacesCore_nil, lemmatizeCore_nil posTag wnLemmatize hpt]
    rfl
  · rw [show data_cleaning posTag wnLemmatize s true true false =
        (⟨pyStrip (remove_stopwords (remove_spaces (remove_short_words
          (remove_non_alpha (negation_handle (remove_stopwords
            (remove_noise_texts (expand_contractions ⟨s.data.map pyToLower⟩))
              true))))) false).data⟩ : String) from rfl, mk_data,
      remove_stopwords_data, remove_spaces_data, short_empty_neg s h,
      removeSpacesCore_nil, removeStopwordsCore_nil]
    rfl
  · rw [show data_cleaning posTag wnLemmatize s true true true =
        (⟨pyStrip (remove_stopwords (lemmatize posTag wnLemmatize
          (remove_spaces (remove_short_words (remove_non_alpha
            (negation_handle (remove_stopwords (remove_noise_texts
              (expand_contractions ⟨s.data.map pyToLower⟩)) true)))))) false).data⟩ :
          String) from rfl, mk_data, remove_stopwords_data, lemmatize_data,
      remove_spaces_data, short_empty_neg s h, removeSpacesCore_nil,
      lemmatizeCore_nil posTag wnLemmatize hpt, removeStopwordsCore_nil]
    rfl

set_option maxRecDepth 40000 in
/-- C6, witness: the pure-punctuation-and-digit tweet "...1234 !?!? @ #"
cleans to the empty string under the negation-handling configuration. -/
theorem c6_degenerate_inputs_empty_witness :
    posTagStub [] = [] ∧
    (∀ c ∈ ("...1234 !?!? @ #" : String).data, isAlphaPy c = false) ∧
    data_cleaning posTagStub wnLemmatizeStub "...1234 !?!? @ #" true true true = "" :=
  ⟨rfl, by decide,
    c6_degenerate_inputs_empty posTagStub wnLemmatizeStub "...1234 !?!? @ #"
      true true true rfl (by decide)⟩

/-! ## A declarative model of the negation rewriting (for C4) -/

/-- Modelled from the claim (spec section 4.2): recognise, at one position
of the string, a whole-word negation cue immediately followed by
whitespace and a lowercase-alphabetic word.  `boundary` says whether the
position sits at a word boundary (start of the string, or right after a
character that is not a word character).  On success the lengths of the
cue, of the whitespace run and of the following word are returned. -/
def specCueAt (boundary : Bool) (suf : List Char) : Option (Nat × Nat × Nat) :=
  if boundary then
    cueWords.findSome? fun cue =>
      if suf.take cue.length == cue.data then
        let rest := suf.drop cue.length
        let wsn := (rest.takeWhile isSpacePy).length
        let wn := ((rest.dropWhile isSpacePy).takeWhile isLowerAlpha).length
        if wsn = 0 ∨ wn = 0 then none else some (cue.length, wsn, wn)
      else none
  else none

/-- Modelled from the claim: the leftmost position of the string carrying a
negation match, searched from the left over all indices; the boundary of a
position inside the string is judged from the character before it, and the
boundary of position 0 from the context `prev` (at the top of the string,
no previous character). -/
def specFirstMatchP (prev : Option Char) (cs : List Char) :
    Option (Nat × Nat × Nat × Nat) :=
  (List.range cs.length).findSome? fun i =>
    (specCueAt (if i == 0 then boundaryBefore prev
        else !isWordChar (cs.getD (i - 1) ' ')) (cs.drop i)).map
      fun m => (i, m.1, m.2.1, m.2.2)

/-- Modelled from the claim: rewrite the leftmost match — keep everything
before it, keep the cue and the whitespace, prepend `NEG` to the single
following word — then continue after that word, judging the next whole-word
boundary from the word's last character; a string without a match (for
instance one whose only cue is its last token) is returned unchanged.
Non-overlapping, left to right; fuel-indexed, each step consumes at least
one character. -/
def negSpecF : Nat → Option Char → List Char → List Char
  | 0, _, cs => cs
  | fuel + 1, prev, cs =>
    match specFirstMatchP prev cs with
    | none => cs
    | some (i, cn, wsn, wn) =>
      cs.take (i + cn + wsn) ++ 'N' :: 'E' :: 'G' ::
        ((cs.drop (i + cn + wsn)).take wn) ++
        negSpecF fuel (some (((cs.drop (i + cn + wsn)).take wn).getLastD 'a'))
          (cs.drop (i + cn + wsn + wn))

/-- Modelled from the claim: the negation rewriting as leftmost search and
splice, the declarative counterpart of the source's scanning `re.sub`. -/
def negation_spec (s : String) : String :=
  ⟨negSpecF s.data.length none s.data⟩

/-! ## Equivalence of the scanner and the leftmost-search model -/

theorem findSomeMapOption {α β γ : Type} (g : α → Option β) (h : β → γ) :
    ∀ l : List α, l.findSome? (fun a => (g a).map h) = (l.findSome? g).map h := by
  intro l
  induction l with
  | nil => rfl
  | cons a l ih =>
    rcases hg : g a with _ | b
    · simp [List.findSome?_cons, hg, ih]
    · simp [List.findSome?_cons, hg]

theorem findSomeCongr {α β : Type} {f g : α → Option β} :
    ∀ l : List α, (∀ a ∈ l, f a = g a) → l.findSome? f = l.findSome? g := by
  intro l h
  induction l with
  | nil => rfl
  | cons a l ih =>
    rw [List.findSome?_cons, List.findSome?_cons, h a (by simp),
      ih (fun x hx => h x (by simp [hx]))]

theorem take_len_takeWhile (p : Char → Bool) (l : List Char) :
    l.take (l.takeWhile p).length = l.takeWhile p := by
  have h := List.take_left (l.takeWhile p) (l.dropWhile p)
  rwa [List.takeWhile_append_dropWhile] at h

theorem drop_len_takeWhile (p : Char → Bool) (l : List Char) :
    l.drop (l.takeWhile p).length = l.dropWhile p := by
  have h := List.drop_left (l.takeWhile p) (l.dropWhile p)
  rwa [List.takeWhile_append_dropWhile] at h

theorem matchCue_spec (suf cue : List Char) :
    (matchCue suf cue).map (fun m =>
        (cue ++ m.1 ++ ('N' :: 'E' :: 'G' :: m.2.1), m.2.1.getLastD 'a', m.2.2)) =
      (if (suf.take cue.length == cue) = true then
          if ((suf.drop cue.length).takeWhile isSpacePy).length = 0 ∨
              (((suf.drop cue.length).dropWhile isSpacePy).takeWhile
                isLowerAlpha).length = 0 then none
          else some (cue.length,
            ((suf.drop cue.length).takeWhile isSpacePy).length,
            (((suf.drop cue.length).dropWhile isSpacePy).takeWhile
              isLowerAlpha).length)
        else none).map
        (fun m => (suf.take (m.1 + m.2.1) ++ ('N' :: 'E' :: 'G' ::
            ((suf.drop (m.1 + m.2.1)).take m.2.2)),
          ((suf.drop (m.1 + m.2.1)).take m.2.2).getLastD 'a',
          suf.drop (m.1 + m.2.1 + m.2.2))) := by
  by_cases ht : (suf.take cue.length == cue) = true
  swap
  · rw [matchCue, if_neg ht, if_neg ht]
    rfl
  rw [matchCue, if_pos ht, if_pos ht]
  have hsuf : suf = cue ++ suf.drop cue.length := by
    have h0 := List.take_append_drop cue.length suf
    rw [show suf.take cue.length = cue by simpa using ht] at h0
    exact h0.symm
  by_cases hws : (suf.drop cue.length).takeWhile isSpacePy = []
  · rw [if_pos (by simp [hws]), if_pos (Or.inl (by simp [hws]))]
    rfl
  by_cases hw : ((suf.drop cue.length).dropWhile isSpacePy).takeWhile isLowerAlpha = []
  · rw [if_pos (by simp [hws, hw]), if_pos (Or.inr (by simp [hw]))]
    rfl
  rw [if_neg (by simp [hws, hw]), if_neg (by simp [hws, hw])]
  simp only [Option.map_some']
  have e1 : suf.take (cue.length +
      ((suf.drop cue.length).takeWhile isSpacePy).length) =
      cue ++ (suf.drop cue.length).takeWhile isSpacePy := by
    have h1 : (cue ++ suf.drop cue.length).take (cue.length +
        ((suf.drop cue.length).takeWhile isSpacePy).length) =
        cue ++ (suf.drop cue.length).take
          (((suf.drop cue.length).takeWhile isSpacePy).length) :=
      List.take_append _
    rw [← hsuf, take_len_takeWhile] at h1
    exact h1
  have e2 : suf.drop (cue.length +
      ((suf.drop cue.length).takeWhile isSpacePy).length) =
      (suf.drop cue.length).dropWhile isSpacePy := by
    have h1 : (cue ++ suf.drop cue.length).drop (cue.length +
        ((suf.drop cue.length).takeWhile isSpacePy).length) =
        (suf.drop cue.length).drop
          (((suf.drop cue.length).takeWhile isSpacePy).length) :=
      List.drop_append _
    rw [← hsuf, drop_len_takeWhile] at h1
    exact h1
  have e3 : ((suf.drop cue.length).dropWhile isSpacePy).take
      (((suf.drop cue.length).dropWhile isSpacePy).takeWhile
        isLowerAlpha).length =
      ((suf.drop cue.length).dropWhile isSpacePy).takeWhile isLowerAlpha :=
    take_len_takeWhile _ _
  have e4 : suf.drop (cue.length +
      ((suf.drop cue.length).takeWhile isSpacePy).length +
      (((suf.drop cue.length).dropWhile isSpacePy).takeWhile
        isLowerAlpha).length) =
      ((suf.drop cue.length).dropWhile isSpacePy).dropWhile isLowerAlpha := by
    rw [← List.drop_drop, e2]
    exact drop_len_takeWhile _ _
  rw [e1, e2, e3, e4]

theorem tryCue_spec (prev : Option Char) (suf : List Char) :
    tryCue prev suf = (specCueAt (boundaryBefore prev) suf).map
      (fun m => (suf.take (m.1 + m.2.1) ++ ('N' :: 'E' :: 'G' ::
          ((suf.drop (m.1 + m.2.1)).take m.2.2)),
        ((suf.drop (m.1 + m.2.1)).take m.2.2).getLastD 'a',
        suf.drop (m.1 + m.2.1 + m.2.2))) := by
  rw [tryCue, specCueAt]
  by_cases hb : boundaryBefore prev = true
  swap
  · rw [if_neg hb, if_neg hb]
    rfl
  rw [if_pos hb, if_pos hb]
  rw [show cueListData = cueWords.map String.data from rfl, List.findSome?_map]
  rw [← findSomeMapOption]
  apply findSomeCongr
  intro cue hcue
  simp only [Function.comp]
  exact matchCue_spec suf cue.data

theorem cueWords_len : ∀ cue ∈ cueWords, 1 ≤ cue.length := by decide

theorem specCueAt_some {b : Bool} {suf : List Char} {cn wsn wn : Nat}
    (h : specCueAt b suf = some (cn, wsn, wn)) :
    1 ≤ cn ∧ 1 ≤ wsn ∧ 1 ≤ wn ∧
      (suf.drop (cn + wsn)).take wn =
        ((suf.drop cn).dropWhile isSpacePy).takeWhile isLowerAlpha ∧
      suf.drop (cn + wsn + wn) =
        ((suf.drop cn).dropWhile isSpacePy).dropWhile isLowerAlpha := by
  rw [specCueAt] at h
  by_cases hb : b = true
  swap
  · rw [if_neg hb] at h; exact absurd h (by simp)
  rw [if_pos hb] at h
  obtain ⟨cue, hcue, hc⟩ := List.exists_of_findSome?_eq_some h
  by_cases ht : (suf.take cue.length == cue.data) = true
  swap
  · rw [if_neg ht] at hc; exact absurd hc (by simp)
  rw [if_pos ht] at hc
  by_cases he : ((suf.drop cue.length).takeWhile isSpacePy).length = 0 ∨
      (((suf.drop cue.length).dropWhile isSpacePy).takeWhile
        isLowerAlpha).length = 0
  · rw [if_pos he] at hc; exact absurd hc (by simp)
  rw [if_neg he] at hc
  push_neg at he
  simp only [Option.some_inj] at hc
  have hm1 : cue.length = cn := congrArg (fun p => p.1) hc
  have hm2 : ((suf.drop cue.length).takeWhile isSpacePy).length = wsn :=
    congrArg (fun p => p.2.1) hc
  have hm3 : (((suf.drop cue.length).dropWhile isSpacePy).takeWhile
      isLowerAlpha).length = wn := congrArg (fun p => p.2.2) hc
  subst hm1
  subst hm2
  subst hm3
  refine ⟨cueWords_len cue hcue, ?_, ?_, ?_, ?_⟩
  · exact Nat.pos_of_ne_zero he.1
  · exact Nat.pos_of_ne_zero he.2
  · rw [← List.drop_drop, drop_len_takeWhile, take_len_takeWhile]
  · rw [← List.drop_drop, ← List.drop_drop, drop_len_takeWhile,
      drop_len_takeWhile]

theorem specFirstMatchP_some {prev : Option Char} {cs : List Char}
    {i cn wsn wn : Nat} (h : specFirstMatchP prev cs = some (i, cn, wsn, wn)) :
    i < cs.length ∧
      specCueAt (if i == 0 then boundaryBefore prev
        else !isWordChar (cs.getD (i - 1) ' ')) (cs.drop i) =
        some (cn, wsn, wn) := by
  rw [specFirstMatchP] at h
  obtain ⟨j, hj, hjs⟩ := List.exists_of_findSome?_eq_some h
  rcases hsc : specCueAt (if j == 0 then boundaryBefore prev
      else !isWordChar (cs.getD (j - 1) ' ')) (cs.drop j) with _ | m
  · rw [hsc] at hjs; exact absurd hjs (by simp)
  · rw [hsc] at hjs
    simp only [Option.map_some', Option.some_inj] at hjs
    have hj1 : j = i := congrArg (fun p => p.1) hjs
    subst hj1
    refine ⟨List.mem_range.1 hj, ?_⟩
    rw [hsc]
    have hm1 : m.1 = cn := congrArg (fun p => p.2.1) hjs
    have hm2 : m.2.1 = wsn := congrArg (fun p => p.2.2.1) hjs
    have hm3 : m.2.2 = wn := congrArg (fun p => p.2.2.2) hjs
    rw [← hm1, ← hm2, ← hm3]

theorem findSome?_cons_of_some {α β : Type} {f : α → Option β} {a : α} {b : β}
    (l : List α) (h : f a = some b) : (a :: l).findSome? f = some b := by
  rw [List.findSome?_cons, h]

theorem findSome?_cons_of_none {α β : Type} {f : α → Option β} {a : α}
    (l : List α) (h : f a = none) : (a :: l).findSome? f = l.findSome? f := by
  rw [List.findSome?_cons, h]

theorem specFirstMatchP_zero {prev : Option Char} {c : Char} {cs' : List Char}
    {m : Nat × Nat × Nat}
    (h0 : specCueAt (boundaryBefore prev) (c :: cs') = some m) :
    specFirstMatchP prev (c :: cs') = some (0, m.1, m.2.1, m.2.2) := by
  rw [specFirstMatchP,
    show (c :: cs').length = cs'.length + 1 from rfl, List.range_succ_eq_map]
  apply findSome?_cons_of_some
  show Option.map (fun m => ((0 : Nat), m.1, m.2.1, m.2.2))
      (specCueAt (boundaryBefore prev) (c :: cs')) = some (0, m.1, m.2.1, m.2.2)
  rw [h0, Option.map_some']

theorem specFirstMatchP_cons {prev : Option Char} {c : Char} {cs' : List Char}
    (h0 : specCueAt (boundaryBefore prev) (c :: cs') = none) :
    specFirstMatchP prev (c :: cs') =
      (specFirstMatchP (some c) cs').map
        (fun r => (r.1 + 1, r.2.1, r.2.2.1, r.2.2.2)) := by
  rw [specFirstMatchP, specFirstMatchP,
    show (c :: cs').length = cs'.length + 1 from rfl, List.range_succ_eq_map]
  refine Eq.trans (findSome?_cons_of_none _ ?_) ?_
  · show Option.map (fun m => ((0 : Nat), m.1, m.2.1, m.2.2))
        (specCueAt (boundaryBefore prev) (c :: cs')) = none
    rw [h0]
    rfl
  · rw [List.findSome?_map, ← findSomeMapOption]
    apply findSomeCongr
    intro i _
    cases i with
    | zero =>
      show Option.map (fun m => ((0 : Nat) + 1, m.1, m.2.1, m.2.2))
          (specCueAt (boundaryBefore (some c)) (cs'.drop 0)) =
        (Option.map (fun m => ((0 : Nat), m.1, m.2.1, m.2.2))
          (specCueAt (boundaryBefore (some c)) (cs'.drop 0))).map
          (fun r => (r.1 + 1, r.2.1, r.2.2.1, r.2.2.2))
      rcases specCueAt (boundaryBefore (some c)) (cs'.drop 0) with _ | m <;> rfl
    | succ j =>
      show Option.map (fun m => (j + 1 + 1, m.1, m.2.1, m.2.2))
          (specCueAt (!isWordChar (cs'.getD (j + 1 - 1) ' '))
            (cs'.drop (j + 1))) =
        (Option.map (fun m => (j + 1, m.1, m.2.1, m.2.2))
          (specCueAt (!isWordChar (cs'.getD (j + 1 - 1) ' '))
            (cs'.drop (j + 1)))).map
          (fun r => (r.1 + 1, r.2.1, r.2.2.1, r.2.2.2))
      rcases specCueAt (!isWordChar (cs'.getD (j + 1 - 1) ' '))
          (cs'.drop (j + 1)) with _ | m <;> rfl

theorem negScanF_nil : ∀ (f : Nat) (prev : Option Char), negScanF f prev [] = [] := by
  intro f prev
  cases f <;> rfl

theorem negSpecF_nil : ∀ (f : Nat) (prev : Option Char), negSpecF f prev [] = [] := by
  intro f prev
  cases f <;> rfl

theorem negSpecF_of_none {prev : Option Char} {cs : List Char}
    (h : specFirstMatchP prev cs = none) : ∀ f, negSpecF f prev cs = cs := by
  intro f
  cases f with
  | zero => rfl
  | succ g =>
    unfold negSpecF
    rw [h]

theorem negSpecF_succ_some {prev : Option Char} {cs : List Char} {g i cn wsn wn : Nat}
    (h : specFirstMatchP prev cs = some (i, cn, wsn, wn)) :
    negSpecF (g + 1) prev cs =
      cs.take (i + cn + wsn) ++ 'N' :: 'E' :: 'G' ::
        ((cs.drop (i + cn + wsn)).take wn) ++
        negSpecF g (some (((cs.drop (i + cn + wsn)).take wn).getLastD 'a'))
          (cs.drop (i + cn + wsn + wn)) := by
  conv_lhs => unfold negSpecF
  simp only [h]

theorem negSpecF_fuel : ∀ (n f f' : Nat) (prev : Option Char) (cs : List Char),
    cs.length ≤ n → cs.length ≤ f → cs.length ≤ f' →
    negSpecF f prev cs = negSpecF f' prev cs := by
  intro n
  induction n with
  | zero =>
    intro f f' prev cs hn hf hf'
    have hcs : cs = [] := List.eq_nil_of_length_eq_zero (Nat.le_zero.1 hn)
    subst hcs
    rw [negSpecF_nil, negSpecF_nil]
  | succ n ih =>
    intro f f' prev cs hn hf hf'
    rcases hm : specFirstMatchP prev cs with _ | ⟨i, cn, wsn, wn⟩
    · rw [negSpecF_of_none hm, negSpecF_of_none hm]
    · obtain ⟨hi, hcue⟩ := specFirstMatchP_some hm
      obtain ⟨hcn, hwsn, hwn, -, -⟩ := specCueAt_some hcue
      have hlen1 : 1 ≤ cs.length := Nat.lt_of_le_of_lt (Nat.zero_le i) hi
      cases f with
      | zero => exact absurd hf (by omega)
      | succ g =>
        cases f' with
        | zero => exact absurd hf' (by omega)
        | succ g' =>
          rw [negSpecF_succ_some hm, negSpecF_succ_some hm]
          have hrl : (cs.drop (i + cn + wsn + wn)).length = cs.length - (i + cn + wsn + wn) :=
            List.length_drop _ _
          rw [ih g g' (some (((cs.drop (i + cn + wsn)).take wn).getLastD 'a'))
            (cs.drop (i + cn + wsn + wn)) (by omega) (by omega) (by omega)]

theorem negScanF_eq_negSpecF : ∀ (n f1 f2 : Nat) (prev : Option Char) (cs : List Char),
    cs.length ≤ n → cs.length ≤ f1 → cs.length ≤ f2 →
    negScanF f1 prev cs = negSpecF f2 prev cs := by
  intro n
  induction n with
  | zero =>
    intro f1 f2 prev cs hn hf1 hf2
    have hcs : cs = [] := List.eq_nil_of_length_eq_zero (Nat.le_zero.1 hn)
    subst hcs
    rw [negScanF_nil, negSpecF_nil]
  | succ n ih =>
    intro f1 f2 prev cs hn hf1 hf2
    cases cs with
    | nil => rw [negScanF_nil, negSpecF_nil]
    | cons c cs' =>
      cases f1 with
      | zero => exact absurd hf1 (by simp)
      | succ g1 =>
        cases f2 with
        | zero => exact absurd hf2 (by simp)
        | succ g2 =>
          have hts := tryCue_spec prev (c :: cs')
          rcases htc : tryCue prev (c :: cs') with _ | ⟨emit, lc, rest⟩
          · rw [htc] at hts
            have h0 : specCueAt (boundaryBefore prev) (c :: cs') = none :=
              Option.map_eq_none'.1 hts.symm
            have hcons := specFirstMatchP_cons h0
            unfold negScanF
            simp only [htc]
            rcases hrest : specFirstMatchP (some c) cs' with _ | ⟨i, cn, wsn, wn⟩
            · have hnone : specFirstMatchP prev (c :: cs') = none := by
                rw [hcons, hrest]
                rfl
              rw [negSpecF_of_none hnone]
              have hL := ih g1 cs'.length (some c) cs'
                (by simpa using Nat.le_of_succ_le_succ hn)
                (by simpa using Nat.le_of_succ_le_succ hf1) (Nat.le_refl _)
              rw [hL, negSpecF_of_none hrest]
            · have hsome : specFirstMatchP prev (c :: cs') =
                  some (i + 1, cn, wsn, wn) := by
                rw [hcons, hrest]
                rfl
              obtain ⟨hi, hcue⟩ := specFirstMatchP_some hrest
              obtain ⟨hcn, hwsn, hwn, -, -⟩ := specCueAt_some hcue
              rw [negSpecF_succ_some hsome]
              have hL := ih g1 cs'.length (some c) cs'
                (by simpa using Nat.le_of_succ_le_succ hn)
                (by simpa using Nat.le_of_succ_le_succ hf1) (Nat.le_refl _)
              rw [hL]
              obtain ⟨K, hK⟩ : ∃ K, cs'.length = K + 1 :=
                ⟨cs'.length - 1, by omega⟩
              rw [hK, negSpecF_succ_some hrest]
              have e1 : i + 1 + cn + wsn = (i + cn + wsn) + 1 := by omega
              rw [e1]
              have e2 : i + cn + wsn + 1 + wn = (i + cn + wsn + wn) + 1 := by omega
              rw [e2]
              simp only [List.take_succ_cons, List.drop_succ_cons, List.cons_append]
              have hrl : (cs'.drop (i + cn + wsn + wn)).length =
                  cs'.length - (i + cn + wsn + wn) := List.length_drop _ _
              rw [negSpecF_fuel (cs'.drop (i + cn + wsn + wn)).length K g2
                (some (((cs'.drop (i + cn + wsn)).take wn).getLastD 'a'))
                (cs'.drop (i + cn + wsn + wn)) (Nat.le_refl _) (by omega)
                (by simp at hf2; omega)]
          · rw [htc] at hts
            obtain ⟨m, hm, hFm⟩ := Option.map_eq_some'.1 hts.symm
            have h0 : specFirstMatchP prev (c :: cs') =
                some (0, m.1, m.2.1, m.2.2) := specFirstMatchP_zero hm
            obtain ⟨hcn, hwsn, hwn, -, -⟩ := specCueAt_some hm
            have h1 := congrArg (fun p => p.1) hFm
            have h2 := congrArg (fun p => p.2.1) hFm
            have h3 := congrArg (fun p => p.2.2) hFm
            simp only at h1 h2 h3
            unfold negScanF
            simp only [htc]
            rw [negSpecF_succ_some h0]
            simp only [Nat.zero_add]
            rw [← h1, h2, h3]
            have hrl : ((c :: cs').drop (m.1 + m.2.1 + m.2.2)).length =
                (c :: cs').length - (m.1 + m.2.1 + m.2.2) := List.length_drop _ _
            rw [ih g1 g2 (some lc) rest ?hln ?hl1 ?hl2]
            case hln =>
              rw [← h3]
              simp only [List.length_cons] at hn hrl ⊢
              omega
            case hl1 =>
              rw [← h3]
              simp only [List.length_cons] at hf1 hrl ⊢
              omega
            case hl2 =>
              rw [← h3]
              simp only [List.length_cons] at hf2 hrl ⊢
              omega

/-- C4: for every input string, `negation_handle` behaves as leftmost-first,
non-overlapping search-and-splice: each whole-word cue (`not`, `no`, `never`,
`cannot`) immediately followed by whitespace and a lowercase-alphabetic word
has only that single following word rewritten by prepending the literal
marker `NEG` with no space; the cue, the whitespace and all text outside the
matches are kept unchanged, all independent matches are rewritten left to
right, and a cue with no following lowercase word (e.g. a cue that is the
last token) causes no change.  Formally, `negation_handle` equals the
declarative model `negation_spec`, which repeatedly finds the leftmost
match position of the cue-whitespace-word pattern (`specFirstMatchP`) and
splices `NEG` in front of the matched word, continuing after it. -/
theorem c4_negation_leftmost_rewrite (s : String) :
    negation_handle s = negation_spec s := by
  unfold negation_handle negation_spec negationHandleCore
  exact congrArg String.mk (negScanF_eq_negSpecF s.data.length s.data.length
    s.data.length none s.data (Nat.le_refl _) (Nat.le_refl _) (Nat.le_refl _))

end TwitterClean
